import Mathlib

/-!
# Verification of the EIP-681 URL codec of eip681-link-generator-v2

This file is a shallow embedding, in Lean 4, of the EIP-681 codec of the
repository `eip681-link-generator-v2`, together with proofs about it.

The repository contains two near-duplicate implementations of the codec:

* `src/utils/eip681.ts` — embedded below in namespace `Eip`.  Its parser
  extracts the recognized query keys (`value`, `gas`, `gasLimit`, `gasPrice`)
  into dedicated fields and does not checksum addresses.
* a second `eip681.ts` (the one exercised by the vitest suite) — embedded
  below in namespace `Eip2`.  Its encoder and parser checksum addresses via
  viem, its parser collects every query pair into `parameters`, and it also
  defines `validateEIP681URL`.

Modelling conventions:

* A JavaScript string is modelled as `List Char` (`Str`).  All inputs of
  interest are ASCII; percent-decoding is modelled at the single-byte level
  (faithful for ASCII), and `encodeURIComponent` percent-encodes the UTF-8
  bytes of non-ASCII code points exactly as JavaScript does.
* A JavaScript number used as a chain id is modelled by `JSNum`
  (undefined / NaN / an exact integer).  The exact-integer model is faithful
  for values up to 2^53; floating-point rounding above 2^53 and the
  exponential rendering of numbers at or above 10^21 are not modelled, and
  every theorem that manipulates a concrete chain id keeps it far below
  these bounds.
* A JavaScript object used as a string-to-string record is modelled by
  `JSRecord`, an insertion-ordered association list; property assignment
  updates in place (`setKey`), and property enumeration (`jsEntries`) lists
  array-index-like keys first in ascending numeric order, then the other
  keys in insertion order — the ECMAScript ordinary own-property order.
-/

set_option maxHeartbeats 1000000

namespace EipCodec

/-- A JavaScript string, modelled as its list of code points. -/
abbrev Str := List Char

/-- A JavaScript number in a field that can also be missing:
`undef` (the field is absent / `undefined`), `nan` (the number `NaN`),
or `num n` (an exact integer; faithful below 2^53). -/
inductive JSNum where
  | undef : JSNum
  | nan : JSNum
  | num : Int → JSNum
deriving DecidableEq, Repr

/-- A JavaScript string-keyed record, in insertion order. -/
abbrev JSRecord := List (Str × Str)

/-- Decimal digit test, `0`–`9`. -/
def isDig (c : Char) : Bool := '0' ≤ c && c ≤ '9'

/-- ASCII letter test. -/
def isAsciiLetter (c : Char) : Bool :=
  ('a' ≤ c && c ≤ 'z') || ('A' ≤ c && c ≤ 'Z')

/-- Hexadecimal digit test (both cases), as in the viem address regex. -/
def isHexDig (c : Char) : Bool :=
  isDig c || ('a' ≤ c && c ≤ 'f') || ('A' ≤ c && c ≤ 'F')

/-- ASCII lower-casing of one character (the fragment of
`String.prototype.toLowerCase` used on hex addresses). -/
def asciiLower (c : Char) : Char :=
  if 'A' ≤ c && c ≤ 'Z' then Char.ofNat (c.toNat + 32) else c

/-- `s.startsWith t` on the model strings. -/
def strStarts (t s : Str) : Bool :=
  s.take t.length = t

/-- JavaScript `String.prototype.split` with a one-character separator:
every piece, in order; `"".split(sep) = [""]`. -/
def splitOnChar (sep : Char) : Str → List Str
  | [] => [[]]
  | c :: rest =>
    let r := splitOnChar sep rest
    if c = sep then [] :: r
    else
      match r with
      | [] => [[c]]
      | p :: ps => (c :: p) :: ps

/-- The value of a digit string, most significant first. -/
def decVal (s : Str) : Nat :=
  s.foldl (fun a c => 10 * a + (c.toNat - 48)) 0

/-- Fuel-driven helper for decimal rendering (structural recursion, so that
concrete evaluation reduces inside the kernel). -/
def toDecimalAux : Nat → Nat → Str
  | 0, _ => []
  | fuel + 1, n =>
    if n < 10 then [Char.ofNat (48 + n)]
    else toDecimalAux fuel (n / 10) ++ [Char.ofNat (48 + n % 10)]

/-- Decimal rendering of a natural number (no sign, no leading zeros). -/
def toDecimal (n : Nat) : Str := toDecimalAux (n + 1) n

/-- Decimal rendering of an integer, as JavaScript renders an integral
number into a template string (exponential form above 10^21 not modelled). -/
def intToDec (n : Int) : Str :=
  if n < 0 then '-' :: toDecimal n.natAbs else toDecimal n.natAbs

/-- The whitespace skipped by `parseInt`. -/
def jsSpace (c : Char) : Bool :=
  c = ' ' || c = '\t' || c = '\n' || c = '\r' || c = '\x0b' || c = '\x0c'

/-- The digits-part of `parseInt`: value of the maximal digit prefix,
`none` when there is no digit (`NaN`). -/
def parseIntDigits (s : Str) : Option Nat :=
  match s.takeWhile isDig with
  | [] => none
  | ds => some (decVal ds)

/-- JavaScript `parseInt(s, 10)`: skip whitespace, optional sign, maximal
run of decimal digits; `none` models `NaN`.  The result is an exact
integer (floating-point rounding above 2^53 is not modelled). -/
def jsParseInt (s : Str) : Option Int :=
  match s.dropWhile jsSpace with
  | [] => none
  | c :: rest =>
    if c = '-' then (parseIntDigits rest).map (fun n => -(n : Int))
    else if c = '+' then (parseIntDigits rest).map (fun n => (n : Int))
    else (parseIntDigits (c :: rest)).map (fun n => (n : Int))

/-- `parseInt` outcome as a `JSNum` field value. -/
def jsNumOfParse : Option Int → JSNum
  | none => JSNum.nan
  | some n => JSNum.num n

/-- Hex value of one character, `none` when not a hex digit. -/
def hexVal (c : Char) : Option Nat :=
  if isDig c then some (c.toNat - 48)
  else if 'a' ≤ c && c ≤ 'f' then some (c.toNat - 87)
  else if 'A' ≤ c && c ≤ 'F' then some (c.toNat - 55)
  else none

/-- JavaScript `Array.prototype.join` with a one-character separator. -/
def joinChar (sep : Char) : List Str → Str
  | [] => []
  | [p] => p
  | p :: q :: t => p ++ sep :: joinChar sep (q :: t)

/-- The characters `encodeURIComponent` leaves unescaped. -/
def isUriUnreserved (c : Char) : Bool :=
  isDig c || isAsciiLetter c ||
    c = '-' || c = '_' || c = '.' || c = '!' || c = '~' || c = '*' ||
    c = '\'' || c = '(' || c = ')'

/-- Upper-case hex digit of a value below 16, read off the hex alphabet
(all uses pass a value below 16, since UTF-8 bytes are below 256). -/
def hexUpper (n : Nat) : Char :=
  "0123456789ABCDEF".toList.getD n '0'

/-- `%XY` escape of one byte. -/
def pctByte (b : Nat) : Str :=
  ['%', hexUpper (b / 16), hexUpper (b % 16)]

/-- The UTF-8 bytes of one code point. -/
def utf8Bytes (n : Nat) : List Nat :=
  if n < 0x80 then [n]
  else if n < 0x800 then [0xC0 + n / 64, 0x80 + n % 64]
  else if n < 0x10000 then
    [0xE0 + n / 4096, 0x80 + n / 64 % 64, 0x80 + n % 64]
  else
    [0xF0 + n / 262144, 0x80 + n / 4096 % 64, 0x80 + n / 64 % 64, 0x80 + n % 64]

/-- JavaScript `encodeURIComponent`: unreserved characters pass through,
everything else is percent-encoded byte by byte (UTF-8). -/
def encodeURIComponent (s : Str) : Str :=
  s.flatMap fun c =>
    if isUriUnreserved c then [c]
    else (utf8Bytes c.toNat).flatMap pctByte

/-- The `application/x-www-form-urlencoded` decoding done by
`URLSearchParams` on each name and value: `+` becomes a space, `%XY` with
two hex digits becomes the byte `XY` (faithful for single-byte, ASCII
sequences; multi-byte UTF-8 reassembly is not modelled), and a malformed
escape is left as-is (this decoding never throws). -/
def qsDecode : Str → Str
  | [] => []
  | c :: r =>
    if c = '+' then ' ' :: qsDecode r
    else if c = '%' then
      match r with
      | a :: b :: r2 =>
        match hexVal a, hexVal b with
        | some x, some y => Char.ofNat (16 * x + y) :: qsDecode r2
        | _, _ => '%' :: qsDecode (a :: b :: r2)
      | r1 => '%' :: qsDecode r1
    else c :: qsDecode r

/-- Split one `name=value` piece at the first `=`; a piece without `=`
has an empty value. -/
def splitFirstEq : Str → Str × Str
  | [] => ([], [])
  | c :: r =>
    if c = '=' then ([], r)
    else
      let p := splitFirstEq r
      (c :: p.1, p.2)

/-- One query piece as a decoded `(name, value)` pair. -/
def qsPair (seg : Str) : Str × Str :=
  let p := splitFirstEq seg
  (qsDecode p.1, qsDecode p.2)

/-- `new URLSearchParams(qs).entries()`: split on `&`, drop empty pieces,
split each piece at its first `=`, decode names and values; order and
duplicate names are preserved. -/
def uspEntries (qs : Str) : List (Str × Str) :=
  (splitOnChar '&' qs).filterMap fun seg =>
    if seg = [] then none else some (qsPair seg)

/-- The query pairs iterated over by the parsers: the `URLSearchParams`
entries of the query string when one is present and truthy (non-empty),
nothing otherwise. -/
def entriesOfQS : Option Str → List (Str × Str)
  | some qs => if qs ≠ [] then uspEntries qs else []
  | none => []

/-- JavaScript property assignment `r[k] = v` on a record: update the
existing property in place, or append a new one. -/
def setKey (r : JSRecord) (k v : Str) : JSRecord :=
  match r with
  | [] => [(k, v)]
  | (k0, v0) :: rest =>
    if k0 = k then (k0, v) :: rest else (k0, v0) :: setKey rest k v

/-- Property lookup on a record. -/
def lookupRec (k : Str) : JSRecord → Option Str
  | [] => none
  | (k0, v0) :: rest => if k0 = k then some v0 else lookupRec k rest

/-- The value of the last pair with key `k`, if any. -/
def lastVal (k : Str) : List (Str × Str) → Option Str
  | [] => none
  | (k0, v0) :: rest =>
    match lastVal k rest with
    | some w => some w
    | none => if k0 = k then some v0 else none

/-- ECMAScript array-index-like key: the canonical decimal form of an
integer below 2^32 - 1. -/
def isIndexKey (k : Str) : Bool :=
  match k with
  | [] => false
  | c :: rest =>
    if c = '0' then rest.isEmpty
    else ('1' ≤ c && c ≤ '9') && k.all isDig && decVal k < 4294967295

/-- Insertion into a list of pairs sorted by numeric key. -/
def insertByVal (x : Str × Str) : List (Str × Str) → List (Str × Str)
  | [] => [x]
  | y :: t => if decVal x.1 ≤ decVal y.1 then x :: y :: t else y :: insertByVal x t

/-- Sort pairs by ascending numeric key value. -/
def sortByVal (l : List (Str × Str)) : List (Str × Str) :=
  l.foldr insertByVal []

/-- ECMAScript ordinary own-property order of a record: array-index-like
keys first, in ascending numeric order, then the remaining keys in
insertion order.  This is the order seen by `Object.entries` and by
`for..of` over the object. -/
def jsEntries (r : JSRecord) : List (Str × Str) :=
  sortByVal (r.filter fun kv => isIndexKey kv.1) ++
    r.filter fun kv => !isIndexKey kv.1

/-- The scheme prefix. -/
def ethScheme : Str := "ethereum:".toList

/-! ## The shared `EIP681Params` input type (`src/types`) -/

/-- The `EIP681Params` record both implementations encode from. -/
structure EIP681Params where
  chainId : JSNum := JSNum.undef
  address : Str
  functionName : Option Str := none
  value : Option Str := none
  gas : Option Str := none
  gasLimit : Option Str := none
  gasPrice : Option Str := none
  parameters : Option JSRecord := none
deriving DecidableEq, Repr

/-- Truthiness of an optional string field (`undefined` and `""` are falsy). -/
def strTruthy : Option Str → Bool
  | none => false
  | some s => s ≠ []

/-- The `@<chainId>` segment of `generateEIP681URL`: emitted when
`chainId && chainId !== 1` (so `undefined`, `NaN`, `0` and `1` all
suppress it). -/
def chainSegment : JSNum → Str
  | JSNum.num n => if n ≠ 0 ∧ n ≠ 1 then '@' :: intToDec n else []
  | JSNum.undef => []
  | JSNum.nan => []

/-- The `/<functionName>` segment (emitted when truthy). -/
def fnSegment : Option Str → Str
  | some fn => if fn ≠ [] then '/' :: fn else []
  | none => []

/-- The optional `value=` query piece (emitted when truthy and not `"0"`). -/
def valuePiece : Option Str → List Str
  | some v => if v ≠ [] ∧ v ≠ "0".toList then ["value=".toList ++ v] else []
  | none => []

/-- An optional `<key>=`-prefixed query piece (emitted when truthy), used
for the three gas fields. -/
def gasPiece (key : Str) : Option Str → List Str
  | some g => if g ≠ [] then [key ++ g] else []
  | none => []

/-- The dedicated-field query pieces `value=`, `gas=`, `gasLimit=`,
`gasPrice=` of `generateEIP681URL`, in the fixed source order:
`value` is emitted when truthy and not `"0"`, the gas fields when truthy. -/
def fieldPieces (p : EIP681Params) : List Str :=
  valuePiece p.value ++ gasPiece "gas=".toList p.gas ++
    gasPiece "gasLimit=".toList p.gasLimit ++ gasPiece "gasPrice=".toList p.gasPrice

/-- The query pieces from the custom `parameters` object: one
`<key>=<escaped value>` piece per property, in ordinary own-property
order (`Object.entries`), with a per-pair rendering function. -/
def optParamPieces (f : Str × Str → Str) : Option JSRecord → List Str
  | some r => (jsEntries r).map f
  | none => []

/-! ## Namespace `Eip`: src/utils/eip681.ts -/

namespace Eip

/-- One custom-parameter piece: the key verbatim, `=`, the escaped value. -/
def paramPiece (kv : Str × Str) : Str :=
  kv.1 ++ '=' :: encodeURIComponent kv.2

/-- The query pieces of `Eip.generateEIP681URL`: the dedicated fields in
fixed order, then `Object.entries(parameters)` with
`encodeURIComponent`-escaped values. -/
def queryPieces (p : EIP681Params) : List Str :=
  fieldPieces p ++ optParamPieces paramPiece p.parameters

/-- `generateEIP681URL` of `src/utils/eip681.ts`: the address is emitted
verbatim (no checksumming in this file), then the optional chain and
function segments, then the query string when any piece survives. -/
def generateEIP681URL (p : EIP681Params) : Str :=
  let url := ethScheme ++ p.address ++ chainSegment p.chainId ++ fnSegment p.functionName
  let qp := queryPieces p
  if qp ≠ [] then url ++ '?' :: joinChar '&' qp else url

/-- The record returned by `Eip.parseEIP681URL`. -/
structure EipResult where
  chainId : JSNum
  address : Str
  functionName : Option Str
  value : Option Str
  gas : Option Str
  gasLimit : Option Str
  gasPrice : Option Str
  parameters : Option JSRecord
deriving DecidableEq, Repr

/-- Accumulator of the query-parameter loop of `Eip.parseEIP681URL`. -/
structure QState where
  value : Option Str := none
  gas : Option Str := none
  gasLimit : Option Str := none
  gasPrice : Option Str := none
  params : JSRecord := []
deriving DecidableEq, Repr

/-- One step of the query loop: the recognized keys are assigned to their
dedicated fields, every other pair goes into the `parameters` object. -/
def qStep (st : QState) (kv : Str × Str) : QState :=
  if kv.1 = "value".toList then { st with value := some kv.2 }
  else if kv.1 = "gas".toList then { st with gas := some kv.2 }
  else if kv.1 = "gasLimit".toList then { st with gasLimit := some kv.2 }
  else if kv.1 = "gasPrice".toList then { st with gasPrice := some kv.2 }
  else { st with params := setKey st.params kv.1 kv.2 }

/-- `parseEIP681URL` of `src/utils/eip681.ts`.  Returns `none` when the
scheme prefix is missing; otherwise: split at the first `?`, split the
head at the first `@` (the chain segment is `parseInt`-ed), split the
part before the `@` at the first `/` for a function name, and run the
query loop on the `URLSearchParams` entries of the query string. -/
def parseEIP681URL (url : Str) : Option EipResult :=
  if strStarts ethScheme url then
    let ws := url.drop 9
    let pieces := splitOnChar '?' ws
    let addressPart := pieces.headD []
    let queryString := pieces[1]?
    let ac :=
      if addressPart.contains '@' then
        let parts := splitOnChar '@' addressPart
        (parts.headD [], jsNumOfParse (jsParseInt (parts.getD 1 [])))
      else (addressPart, JSNum.undef)
    let af :=
      if ac.1.contains '/' then
        let parts := splitOnChar '/' ac.1
        (parts.headD [], some (parts.getD 1 []))
      else (ac.1, (none : Option Str))
    let entries := entriesOfQS queryString
    let st := entries.foldl qStep {}
    some { chainId := ac.2, address := af.1, functionName := af.2,
           value := st.value, gas := st.gas, gasLimit := st.gasLimit,
           gasPrice := st.gasPrice,
           parameters := if st.params ≠ [] then some st.params else none }
  else none

end Eip

/-! ## The viem address helpers used by the second implementation

viem is an external dependency whose source is not part of this
repository; the definitions in this section are therefore modelled from
the specification rather than translated from source. -/

/-- Modelled from the spec: the viem address syntax check — `0x` followed
by exactly 40 hex digits (the regex behind `isAddress(addr, strict: false)`,
which is what `getAddress` validates). -/
def isHexAddress40 (s : Str) : Bool :=
  match s with
  | '0' :: 'x' :: rest => rest.length = 40 && rest.all isHexDig
  | _ => false

/-- Modelled from the spec: the viem checksum re-casing of a syntactically
valid address.  The spec describes it only as a deterministic re-casing of
the 40 hex digits computed from the lower-cased address ("mixed-case per
the well-known checksum algorithm"); the underlying keccak-256 hash is not
part of this repository and is not modelled, so this model normalizes to
the lower-cased form.  Every theorem below depends only on the properties
the spec states: the output is a fixed function of the lower-cased input,
differs from the input only in letter case, and the map is idempotent. -/
def checksumAddress (s : Str) : Str :=
  '0' :: 'x' :: (s.drop 2).map asciiLower

/-- Modelled from the spec: viem `getAddress` — checksum a syntactically
valid address, throw (here: `none`) otherwise. -/
def getAddr (s : Str) : Option Str :=
  if isHexAddress40 s then some (checksumAddress s) else none

/-- Modelled from the spec: viem `isAddress` with its default strict
checksum verification — the syntax check, then: an all-lower-case address
passes, otherwise the casing must equal the checksum casing. -/
def isAddress (s : Str) : Bool :=
  if !isHexAddress40 s then false
  else if s.map asciiLower = s then true
  else checksumAddress s = s

/-! ## Namespace `Eip2`: the second eip681.ts (the one under test) -/

namespace Eip2

/-- `toChecksumAddress`: checksum via `getAddress`, falling back to the
original string when `getAddress` throws. -/
def toChecksumAddress (s : Str) : Str :=
  match getAddr s with
  | some c => c
  | none => s

/-- One custom-parameter piece: the key verbatim, `=`, the escaped value,
where a value under the key `"address"` is checksummed before escaping. -/
def paramPiece (kv : Str × Str) : Str :=
  kv.1 ++ '=' ::
    encodeURIComponent
      (if kv.1 = "address".toList then toChecksumAddress kv.2 else kv.2)

/-- The query pieces of `Eip2.generateEIP681URL`: the dedicated fields in
fixed order, then `Object.entries(parameters)`, where a value under the
key `"address"` is checksummed before being escaped. -/
def queryPieces (p : EIP681Params) : List Str :=
  fieldPieces p ++ optParamPieces paramPiece p.parameters

/-- `generateEIP681URL` of the second eip681.ts: as in `Eip`, but the
address is checksummed (with fallback) before emission. -/
def generateEIP681URL (p : EIP681Params) : Str :=
  let url := ethScheme ++ toChecksumAddress p.address ++
    chainSegment p.chainId ++ fnSegment p.functionName
  let qp := queryPieces p
  if qp ≠ [] then url ++ '?' :: joinChar '&' qp else url

/-- The record returned by `Eip2.parseEIP681URL`. -/
structure ParsedURL where
  scheme : Str
  address : Str
  chainId : JSNum
  functionName : Option Str
  parameters : Option JSRecord
deriving DecidableEq, Repr

/-- `parseEIP681URL` of the second eip681.ts.  Differences from `Eip`:
a function name is also recognized after the chain segment; the returned
address (and any `parameters["address"]`) is checksummed; every query
pair goes into `parameters` (no dedicated fields); the record is rebuilt
by `Object.fromEntries` over `Object.entries`, hence in ordinary
own-property order. -/
def parseEIP681URL (url : Str) : Option ParsedURL :=
  if strStarts ethScheme url then
    let ws := url.drop 9
    let pieces := splitOnChar '?' ws
    let addressPart := pieces.headD []
    let queryString := pieces[1]?
    let acf :=
      if addressPart.contains '@' then
        let parts := splitOnChar '@' addressPart
        let a := parts.headD []
        let chainPart := parts.getD 1 []
        if chainPart.contains '/' then
          let cp := splitOnChar '/' chainPart
          (a, jsNumOfParse (jsParseInt (cp.headD [])), some (cp.getD 1 []))
        else (a, jsNumOfParse (jsParseInt chainPart), (none : Option Str))
      else (addressPart, JSNum.undef, (none : Option Str))
    let af :=
      if (match acf.2.2 with | none => true | some f => f = []) && acf.1.contains '/' then
        let parts := splitOnChar '/' acf.1
        (parts.headD [], some (parts.getD 1 []))
      else (acf.1, acf.2.2)
    let entries := entriesOfQS queryString
    let rec0 := entries.foldl (fun r kv => setKey r kv.1 kv.2) []
    some { scheme := "ethereum".toList,
           address := toChecksumAddress af.1,
           chainId := acf.2.1,
           functionName := af.2,
           parameters :=
             if rec0 ≠ [] then
               some ((jsEntries rec0).foldl (fun r kv =>
                 setKey r kv.1
                   (if kv.1 = "address".toList then toChecksumAddress kv.2 else kv.2)) [])
             else none }
  else none

/-- `validateAddress` of the second eip681.ts: checksum first (viem 2.x
requires proper checksum format), then `isAddress`; `false` when
`getAddress` throws. -/
def validateAddress (s : Str) : Bool :=
  match getAddr s with
  | some c => isAddress c
  | none => false

/-- `validateChainId`: `Number.isInteger(chainId) && chainId > 0`
(`NaN` and `undefined` are not integers). -/
def validateChainId (c : JSNum) : Bool :=
  match c with
  | JSNum.num n => 0 < n
  | _ => false

/-- `validateEIP681URL`: scheme prefix, a successful parse, a valid
address, and — when a chain id is present — a valid chain id. -/
def validateEIP681URL (url : Str) : Bool :=
  if !strStarts ethScheme url then false
  else
    match parseEIP681URL url with
    | none => false
    | some p =>
      if !validateAddress p.address then false
      else
        match p.chainId with
        | JSNum.undef => true
        | c => validateChainId c

end Eip2

/-! ## Side conditions and expected values used by the claim statements -/

/-- The query keys the `Eip` parser extracts into dedicated fields. -/
def isRecognizedKey (k : Str) : Bool :=
  k = "value".toList || k = "gas".toList ||
    k = "gasLimit".toList || k = "gasPrice".toList

/-- ASCII-only string (the fragment on which the percent-codec model is
exact). -/
def asciiStr (s : Str) : Bool := s.all fun c => c.toNat < 128

/-- Alphanumeric ASCII character. -/
def isAlnum (c : Char) : Bool := isDig c || isAsciiLetter c

/-- Keys have pairwise distinct names (a JavaScript object cannot hold two
properties of the same name). -/
def nodupKeys : List (Str × Str) → Bool
  | [] => true
  | (k, _) :: t => !(t.any fun kv => kv.1 = k) && nodupKeys t

/-- An optional decimal-string field (`value`/`gas`-style), possibly empty. -/
def digitStrOpt : Option Str → Bool
  | none => true
  | some s => s.all isDig

/-- An optional identifier-like function name. -/
def fnValid : Option Str → Bool
  | none => true
  | some f => f.all isAlnum

/-- A well-formed custom-parameter key for the round-trip statement:
nonempty, alphanumeric, starting with a letter (hence not array-index
like), and not one of the recognized keys. -/
def paramKeyOk (k : Str) : Bool :=
  match k with
  | [] => false
  | c :: _ => isAsciiLetter c && k.all isAlnum && !isRecognizedKey k

/-- Well-formed custom parameters: nonempty, distinct well-formed keys,
ASCII values. -/
def paramsValid : Option JSRecord → Bool
  | none => true
  | some r =>
    r ≠ [] && nodupKeys r && r.all fun kv => paramKeyOk kv.1 && asciiStr kv.2

/-- A chain id that is absent or a positive integer in the exactly
representable range. -/
def chainValid : JSNum → Bool
  | JSNum.undef => true
  | JSNum.nan => false
  | JSNum.num n => 0 < n && n ≤ 2 ^ 53

/-- A syntactically valid `EIP681Params` (the "syntactically valid
PaymentIntent" of the round-trip claim): valid hex address, chain id
absent or a positive representable integer, identifier-like function
name, decimal-string quantity fields, well-formed custom parameters. -/
def WellFormed (p : EIP681Params) : Bool :=
  isHexAddress40 p.address && chainValid p.chainId && fnValid p.functionName &&
    digitStrOpt p.value && digitStrOpt p.gas && digitStrOpt p.gasLimit &&
    digitStrOpt p.gasPrice && paramsValid p.parameters

/-- Whether `generateEIP681URL` emits a chain segment
(`chainId && chainId !== 1`). -/
def chainEmits : JSNum → Bool
  | JSNum.num n => n ≠ 0 && n ≠ 1
  | JSNum.undef => false
  | JSNum.nan => false

/-- Drop an empty optional string (the encoder omits falsy fields). -/
def normOptStr : Option Str → Option Str
  | none => none
  | some s => if s = [] then none else some s

/-- Drop an empty or `"0"` value (the encoder omits both). -/
def normValue : Option Str → Option Str
  | none => none
  | some s => if s = [] ∨ s = "0".toList then none else some s

/-- The record `Eip.parseEIP681URL` actually returns for the URL encoded
from a well-formed `p`: every field of `p` survives except those the
encoder omits (empty strings, value `"0"`, chain id `0`/`1`, empty
parameters) and — the divergence the round-trip claim misses — the
function name, which the parser of this file loses whenever a chain
segment was emitted. -/
def expectedRoundTrip (p : EIP681Params) : Eip.EipResult :=
  { chainId := if chainEmits p.chainId then p.chainId else JSNum.undef,
    address := p.address,
    functionName := if chainEmits p.chainId then none else normOptStr p.functionName,
    value := normValue p.value,
    gas := normOptStr p.gas,
    gasLimit := normOptStr p.gasLimit,
    gasPrice := normOptStr p.gasPrice,
    parameters :=
      match p.parameters with
      | none => none
      | some r => if r = [] then none else some r }

/-- First-occurrence-keyed, last-value-winning deduplication: the list of
properties a JavaScript object holds after assigning a list of key/value
pairs in order. -/
def dedupKeepFirstAux : Nat → List (Str × Str) → List (Str × Str)
  | 0, _ => []
  | _ + 1, [] => []
  | fuel + 1, (k, v) :: rest =>
    (k, ((lastVal k rest).getD v)) ::
      dedupKeepFirstAux fuel (rest.filter fun kv => kv.1 ≠ k)

def dedupKeepFirst (l : List (Str × Str)) : List (Str × Str) :=
  dedupKeepFirstAux l.length l

/-- The query pairs `Eip.parseEIP681URL` iterates over for a given URL
(the `URLSearchParams` entries of the part after the first `?`). -/
def Eip.qPairs (url : Str) : List (Str × Str) :=
  entriesOfQS (splitOnChar '?' (url.drop 9))[1]?

/-- The `EIP681Params` value obtained by feeding a parsed record back to
the encoder (the composition the idempotence claim takes): the dedicated
quantity fields of the destructuring are all `undefined`. -/
def Eip2.toParams (r : Eip2.ParsedURL) : EIP681Params :=
  { chainId := r.chainId, address := r.address,
    functionName := r.functionName, parameters := r.parameters }

/-- A custom-parameter key that survives a re-encode verbatim: ASCII and
free of the characters that the raw (unescaped) key emission or the
query-string decoding would alter. -/
def keyReEncodable (k : Str) : Bool :=
  asciiStr k && !k.contains '%' && !k.contains '+' && !k.contains '&' &&
    !k.contains '=' && !k.contains '?'

/-- The address of a parsed record is re-parseable: free of `@` `/` `?`
and fixed by checksum normalization (true of every checksummed output). -/
def addrOk2 (a : Str) : Bool :=
  !a.contains '@' && !a.contains '/' && !a.contains '?' &&
    Eip2.toChecksumAddress a = a

/-- A chain id the encoder reproduces: absent, or a representable integer
other than the dropped values `0` and `1`. -/
def chainOk2 : JSNum → Bool
  | JSNum.undef => true
  | JSNum.nan => false
  | JSNum.num n => n ≠ 0 && n ≠ 1 && n.natAbs ≤ 2 ^ 53

/-- A function name the encoder reproduces: absent, or nonempty and free
of `@` `/` `?`. -/
def fnOk2 : Option Str → Bool
  | none => true
  | some f => f ≠ [] && !f.contains '@' && !f.contains '/' && !f.contains '?'

/-- An optional string fixed by checksum normalization. -/
def optChecksumFixed : Option Str → Bool
  | some v => Eip2.toChecksumAddress v = v
  | none => true

/-- Parameters the encoder reproduces: absent, or nonempty with distinct
re-encodable keys, ASCII values, and an `address` entry fixed by checksum
normalization. -/
def paramsOk2 : Option JSRecord → Bool
  | none => true
  | some pr =>
    pr ≠ [] && nodupKeys pr &&
      (pr.all fun kv => keyReEncodable kv.1 && asciiStr kv.2) &&
      optChecksumFixed (lookupRec "address".toList pr)

/-- Side conditions under which a parsed record survives
encode-then-decode: chain id absent or a representable integer other
than `0` and `1` (those are dropped by the encoder), function name
absent or nonempty and free of `@` `/` `?`, address fixed by checksum
normalization and free of `@` `/` `?`, parameters (when present)
nonempty with distinct re-encodable keys, ASCII values, and an
`address` parameter fixed by checksum normalization. -/
def Eip2.goodParsed (r : Eip2.ParsedURL) : Bool :=
  addrOk2 r.address && chainOk2 r.chainId && fnOk2 r.functionName &&
    paramsOk2 r.parameters

/-- Structural equality of two parsed records up to property order of the
`parameters` object (JavaScript deep equality of objects is insensitive
to property order). -/
def Eip2.ParsedURL.equiv (a b : Eip2.ParsedURL) : Prop :=
  a.scheme = b.scheme ∧ a.address = b.address ∧ a.chainId = b.chainId ∧
    a.functionName = b.functionName ∧
    (match a.parameters, b.parameters with
     | none, none => True
     | some x, some y => x.Perm y
     | _, _ => False)

/-- Side conditions for the chain-emission theorem: nothing outside the
chain segment can contribute an `@` (a valid address is checksummed to
hex; query values are percent-escaped, so only the verbatim-emitted
address, function name, quantity fields and parameter keys need the
restriction), and a present chain id is exactly representable. -/
def noAtParams (p : EIP681Params) : Bool :=
  !p.address.contains '@' &&
  (match p.chainId with
   | JSNum.num n => n.natAbs ≤ 2 ^ 53
   | _ => true) &&
  (match p.functionName with
   | none => true
   | some f => !f.contains '@') &&
  (match p.value with | none => true | some v => !v.contains '@') &&
  (match p.gas with | none => true | some v => !v.contains '@') &&
  (match p.gasLimit with | none => true | some v => !v.contains '@') &&
  (match p.gasPrice with | none => true | some v => !v.contains '@') &&
  (match p.parameters with
   | none => true
   | some r => r.all fun kv => !kv.1.contains '@')

/-! ## Generic helper lemmas -/

theorem contains_true_iff (s : Str) (c : Char) : s.contains c = true ↔ c ∈ s := by
  induction s with
  | nil => simp [List.contains]
  | cons a t ih =>
    simp only [List.contains, List.elem_cons] at ih ⊢
    by_cases h : c = a
    · subst h
      simp
    · have hb : (c == a) = false := by simp [h]
      simp only [hb, List.mem_cons, ih]
      tauto

theorem contains_false_of_not_mem {s : Str} {c : Char} (h : c ∉ s) :
    s.contains c = false := by
  cases hc : s.contains c with
  | false => rfl
  | true => exact absurd ((contains_true_iff s c).1 hc) h

theorem not_mem_of_all_ne {p : Char → Bool} {s : Str} {d : Char}
    (h : ∀ x ∈ s, p x = true) (hd : p d = false) : d ∉ s := by
  intro hm
  have := h d hm
  rw [hd] at this
  cases this

theorem strStarts_append_self (t s : Str) : strStarts t (t ++ s) = true := by
  simp [strStarts, List.take_left]

theorem drop_scheme_append (s : Str) : (ethScheme ++ s).drop 9 = s := by
  have h9 : ethScheme.length = 9 := by decide
  calc (ethScheme ++ s).drop 9 = (ethScheme ++ s).drop ethScheme.length := by rw [h9]
    _ = s := List.drop_left ethScheme s

theorem splitOnChar_ne_nil (c : Char) (s : Str) : splitOnChar c s ≠ [] := by
  induction s with
  | nil => simp [splitOnChar]
  | cons a t ih =>
    simp only [splitOnChar]
    split
    · simp
    · cases h : splitOnChar c t with
      | nil => simp
      | cons p ps => simp

theorem splitOnChar_of_not_mem {c : Char} {s : Str} (h : c ∉ s) :
    splitOnChar c s = [s] := by
  induction s with
  | nil => rfl
  | cons a t ih =>
    have hne : ¬ a = c := fun he => h (he ▸ List.mem_cons_self a t)
    have ht : c ∉ t := fun hm => h (List.mem_cons_of_mem a hm)
    simp only [splitOnChar, if_neg hne, ih ht]

theorem splitOnChar_append {c : Char} {a : Str} (b : Str) (h : c ∉ a) :
    splitOnChar c (a ++ c :: b) = a :: splitOnChar c b := by
  induction a with
  | nil => simp [splitOnChar]
  | cons x t ih =>
    have hne : ¬ x = c := fun he => h (he ▸ List.mem_cons_self x t)
    have ht : c ∉ t := fun hm => h (List.mem_cons_of_mem x hm)
    have step := ih ht
    show splitOnChar c (x :: (t ++ c :: b)) = (x :: t) :: splitOnChar c b
    simp only [splitOnChar, if_neg hne]
    rw [step]

/-! ### Digit and decimal lemmas -/

theorem char_ne_of_class {p : Char → Bool} {c d : Char}
    (h : p c = true) (hd : p d = false) : c ≠ d := by
  intro he
  rw [he, hd] at h
  cases h

theorem isDig_char_ofNat {k : Nat} (h : k < 10) :
    isDig (Char.ofNat (48 + k)) = true := by
  interval_cases k <;> decide

theorem toNat_char_ofNat {k : Nat} (h : k < 10) :
    (Char.ofNat (48 + k)).toNat = 48 + k := by
  interval_cases k <;> decide

theorem toDecimalAux_irrel : ∀ f1 : Nat, ∀ f2 n : Nat, n < f1 → n < f2 →
    toDecimalAux f1 n = toDecimalAux f2 n := by
  intro f1
  induction f1 with
  | zero => intro f2 n h1 _; omega
  | succ f ih =>
    intro f2 n h1 h2
    cases f2 with
    | zero => omega
    | succ f2p =>
      show toDecimalAux (f + 1) n = toDecimalAux (f2p + 1) n
      unfold toDecimalAux
      split
      · rfl
      · rename_i hge
        have hlt : n / 10 < n := Nat.div_lt_self (by omega) (by omega)
        rw [ih f2p (n / 10) (by omega) (by omega)]

theorem toDecimal_eq (n : Nat) :
    toDecimal n =
      if n < 10 then [Char.ofNat (48 + n)]
      else toDecimal (n / 10) ++ [Char.ofNat (48 + n % 10)] := by
  show toDecimalAux (n + 1) n = _
  unfold toDecimalAux
  split
  · rfl
  · rename_i hge
    have hlt : n / 10 < n := Nat.div_lt_self (by omega) (by omega)
    rw [toDecimalAux_irrel n (n / 10 + 1) (n / 10) (by omega) (by omega)]
    rfl

theorem toDecimal_all_dig (n : Nat) : ∀ d ∈ toDecimal n, isDig d = true := by
  induction n using Nat.strong_induction_on with
  | _ n ih =>
    rw [toDecimal_eq]
    split
    · intro d hd
      rw [List.mem_singleton] at hd
      subst hd
      exact isDig_char_ofNat (by omega)
    · intro d hd
      rcases List.mem_append.1 hd with h1 | h1
      · exact ih (n / 10) (Nat.div_lt_self (by omega) (by omega)) d h1
      · rw [List.mem_singleton] at h1
        subst h1
        exact isDig_char_ofNat (Nat.mod_lt _ (by omega))

theorem toDecimal_ne_nil (n : Nat) : toDecimal n ≠ [] := by
  rw [toDecimal_eq]
  split
  · simp
  · simp

theorem decVal_append_singleton (xs : Str) (c : Char) :
    decVal (xs ++ [c]) = 10 * decVal xs + (c.toNat - 48) := by
  simp [decVal, List.foldl_append]

theorem decVal_toDecimal (n : Nat) : decVal (toDecimal n) = n := by
  induction n using Nat.strong_induction_on with
  | _ n ih =>
    rw [toDecimal_eq]
    split
    · rename_i h
      have := toNat_char_ofNat h
      simp [decVal, this]
    · rename_i h
      rw [decVal_append_singleton, ih (n / 10) (Nat.div_lt_self (by omega) (by omega))]
      have := toNat_char_ofNat (k := n % 10) (Nat.mod_lt _ (by omega))
      rw [this]
      omega

theorem takeWhile_eq_self_of_all {p : Char → Bool} {s : Str}
    (h : ∀ c ∈ s, p c = true) : s.takeWhile p = s := by
  induction s with
  | nil => rfl
  | cons a t ih =>
    have ha := h a (List.mem_cons_self a t)
    simp only [List.takeWhile_cons, ha, if_true]
    rw [ih fun c hc => h c (List.mem_cons_of_mem a hc)]

theorem takeWhile_append_of_stop {p : Char → Bool} {a b : Str}
    (ha : ∀ c ∈ a, p c = true) (hb : ∀ c ∈ b.take 1, p c = false) :
    (a ++ b).takeWhile p = a := by
  induction a with
  | nil =>
    cases b with
    | nil => rfl
    | cons x t =>
      have := hb x (by simp)
      simp [List.takeWhile_cons, this]
  | cons x t ih =>
    have hx := ha x (List.mem_cons_self x t)
    simp only [List.cons_append, List.takeWhile_cons, hx, if_true]
    rw [ih fun c hc => ha c (List.mem_cons_of_mem x hc)]

theorem dropWhile_eq_self_of_head {p : Char → Bool} {s : Str}
    (h : ∀ c ∈ s.take 1, p c = false) : s.dropWhile p = s := by
  cases s with
  | nil => rfl
  | cons a t =>
    have := h a (by simp)
    simp [List.dropWhile_cons, this]

theorem jsSpace_false_of_dig {c : Char} (h : isDig c = true) : jsSpace c = false := by
  cases hs : jsSpace c with
  | false => rfl
  | true =>
    exfalso
    simp only [jsSpace, Bool.or_eq_true, decide_eq_true_eq] at hs
    rcases hs with ((((h1 | h1) | h1) | h1) | h1) | h1 <;>
      (try subst h1) <;> exact absurd h (by decide)

theorem parseIntDigits_append (a b : Str) (hne : a ≠ [])
    (ha : ∀ c ∈ a, isDig c = true) (hb : ∀ c ∈ b.take 1, isDig c = false) :
    parseIntDigits (a ++ b) = some (decVal a) := by
  unfold parseIntDigits
  rw [takeWhile_append_of_stop ha hb]
  cases a with
  | nil => exact absurd rfl hne
  | cons x t => rfl

theorem jsParseInt_cons {c : Char} {r : Str} (hsp : jsSpace c = false) :
    jsParseInt (c :: r) =
      if c = '-' then (parseIntDigits r).map (fun n => -(n : Int))
      else if c = '+' then (parseIntDigits r).map (fun n => (n : Int))
      else (parseIntDigits (c :: r)).map (fun n => (n : Int)) := by
  unfold jsParseInt
  simp only [List.dropWhile_cons, hsp, Bool.false_eq_true, if_false]

theorem jsParseInt_decimal_append (n : Nat) (rest : Str)
    (hrest : ∀ c ∈ rest.take 1, isDig c = false) :
    jsParseInt (toDecimal n ++ rest) = some (n : Int) := by
  rcases hd : toDecimal n with _ | ⟨c, t⟩
  · exact absurd hd (toDecimal_ne_nil n)
  · have hall := toDecimal_all_dig n
    rw [hd] at hall
    have hc : isDig c = true := hall c (List.mem_cons_self c t)
    have hcm : ¬ c = '-' := char_ne_of_class hc (by decide)
    have hcp : ¬ c = '+' := char_ne_of_class hc (by decide)
    rw [List.cons_append, jsParseInt_cons (jsSpace_false_of_dig hc),
      if_neg hcm, if_neg hcp, ← List.cons_append, ← hd,
      parseIntDigits_append _ _ (toDecimal_ne_nil n) (toDecimal_all_dig n) hrest,
      decVal_toDecimal]
    rfl

theorem jsParseInt_neg_decimal_append (n : Nat) (rest : Str)
    (hrest : ∀ c ∈ rest.take 1, isDig c = false) :
    jsParseInt ('-' :: (toDecimal n ++ rest)) = some (-(n : Int)) := by
  rw [jsParseInt_cons (by decide), if_pos rfl,
    parseIntDigits_append _ _ (toDecimal_ne_nil n) (toDecimal_all_dig n) hrest,
    decVal_toDecimal]
  rfl

theorem jsParseInt_intToDec (m : Int) (rest : Str)
    (hrest : ∀ c ∈ rest.take 1, isDig c = false) :
    jsParseInt (intToDec m ++ rest) = some m := by
  unfold intToDec
  split
  · rename_i h
    rw [List.cons_append, jsParseInt_neg_decimal_append m.natAbs rest hrest]
    congr 1
    omega
  · rename_i h
    rw [jsParseInt_decimal_append m.natAbs rest hrest]
    congr 1
    omega

/-! ### Percent-codec lemmas -/

theorem hexUpper_mem (n : Nat) : hexUpper n ∈ "0123456789ABCDEF".toList := by
  unfold hexUpper
  rcases Nat.lt_or_ge n ("0123456789ABCDEF".toList.length) with h | h
  · rw [List.getD_eq_getElem _ _ h]
    exact List.getElem_mem h
  · rw [List.getD_eq_default _ _ h]
    decide

theorem hexVal_hexUpper {k : Nat} (h : k < 16) : hexVal (hexUpper k) = some k := by
  interval_cases k <;> decide

theorem mem_pctByte {c : Char} {b : Nat} (h : c ∈ pctByte b) :
    c = '%' ∨ c ∈ "0123456789ABCDEF".toList := by
  unfold pctByte at h
  rcases List.mem_cons.1 h with h1 | h1
  · exact Or.inl h1
  · rcases List.mem_cons.1 h1 with h2 | h2
    · subst h2
      exact Or.inr (hexUpper_mem _)
    · rw [List.mem_singleton] at h2
      subst h2
      exact Or.inr (hexUpper_mem _)

theorem encodeURIComponent_cons (a : Char) (t : Str) :
    encodeURIComponent (a :: t) =
      (if isUriUnreserved a then [a] else (utf8Bytes a.toNat).flatMap pctByte) ++
        encodeURIComponent t := by
  unfold encodeURIComponent
  rw [List.flatMap_cons]

theorem mem_encodeURIComponent {c : Char} {s : Str} (h : c ∈ encodeURIComponent s) :
    isUriUnreserved c = true ∨ c = '%' ∨ c ∈ "0123456789ABCDEF".toList := by
  unfold encodeURIComponent at h
  rw [List.mem_flatMap] at h
  obtain ⟨a, _, hc⟩ := h
  by_cases hu : isUriUnreserved a
  · rw [if_pos hu, List.mem_singleton] at hc
    subst hc
    exact Or.inl hu
  · rw [if_neg hu, List.mem_flatMap] at hc
    obtain ⟨b, _, hcb⟩ := hc
    exact Or.inr (mem_pctByte hcb)

theorem not_mem_encodeURIComponent {d : Char} (s : Str)
    (hd1 : isUriUnreserved d = false) (hd2 : d ≠ '%')
    (hd3 : d ∉ "0123456789ABCDEF".toList) : d ∉ encodeURIComponent s := by
  intro h
  rcases mem_encodeURIComponent h with h1 | h1 | h1
  · rw [hd1] at h1
    cases h1
  · exact hd2 h1
  · exact hd3 h1

theorem qsDecode_cons_plain {c : Char} (r : Str) (h1 : ¬ c = '+') (h2 : ¬ c = '%') :
    qsDecode (c :: r) = c :: qsDecode r := by
  rw [qsDecode.eq_def]
  simp only [h1, h2, if_false]

theorem qsDecode_pct {x : Nat} (hx : x < 128) (r : Str) :
    qsDecode ('%' :: hexUpper (x / 16) :: hexUpper (x % 16) :: r) =
      Char.ofNat x :: qsDecode r := by
  rw [qsDecode.eq_def]
  simp only [hexVal_hexUpper (show x / 16 < 16 by omega),
    hexVal_hexUpper (show x % 16 < 16 by omega), reduceIte]
  rw [if_neg (by decide : ¬ ('%' : Char) = '+'), Nat.div_add_mod]

theorem utf8Bytes_ascii {n : Nat} (h : n < 128) : utf8Bytes n = [n] := by
  unfold utf8Bytes
  rw [if_pos h]

theorem qsDecode_encode {s : Str} (h : ∀ c ∈ s, c.toNat < 128) :
    qsDecode (encodeURIComponent s) = s := by
  induction s with
  | nil => rfl
  | cons a t ih =>
    have ha := h a (List.mem_cons_self a t)
    have ht := ih fun c hc => h c (List.mem_cons_of_mem a hc)
    rw [encodeURIComponent_cons]
    by_cases hu : isUriUnreserved a
    · rw [if_pos hu, List.singleton_append,
        qsDecode_cons_plain _ (char_ne_of_class hu (by decide))
          (char_ne_of_class hu (by decide)), ht]
    · rw [if_neg hu, utf8Bytes_ascii ha, List.flatMap_cons, List.flatMap_nil,
        List.append_nil]
      show qsDecode ('%' :: hexUpper (a.toNat / 16) :: hexUpper (a.toNat % 16) ::
        encodeURIComponent t) = a :: t
      rw [qsDecode_pct ha, ht, Char.ofNat_toNat]

theorem qsDecode_eq_self {s : Str} (h1 : '%' ∉ s) (h2 : '+' ∉ s) :
    qsDecode s = s := by
  induction s with
  | nil => rfl
  | cons a t ih =>
    have hp : ¬ a = '%' := fun he => h1 (he ▸ List.mem_cons_self a t)
    have hpl : ¬ a = '+' := fun he => h2 (he ▸ List.mem_cons_self a t)
    rw [qsDecode_cons_plain _ hpl hp,
      ih (fun hm => h1 (List.mem_cons_of_mem a hm))
        (fun hm => h2 (List.mem_cons_of_mem a hm))]

/-! ### Query-piece lemmas -/

theorem splitFirstEq_append {k : Str} (v : Str) (hk : '=' ∉ k) :
    splitFirstEq (k ++ '=' :: v) = (k, v) := by
  induction k with
  | nil =>
    simp [splitFirstEq]
  | cons c t ih =>
    have hne : ¬ c = '=' := fun he => hk (he ▸ List.mem_cons_self c t)
    have ht := ih fun hm => hk (List.mem_cons_of_mem c hm)
    rw [List.cons_append]
    unfold splitFirstEq
    rw [if_neg hne, ht]

theorem qsPair_kv {k : Str} (v : Str) (hk : '=' ∉ k) :
    qsPair (k ++ '=' :: v) = (qsDecode k, qsDecode v) := by
  unfold qsPair
  rw [splitFirstEq_append v hk]

theorem joinChar_cons_cons (sep : Char) (p q : Str) (t : List Str) :
    joinChar sep (p :: q :: t) = p ++ sep :: joinChar sep (q :: t) := rfl

theorem splitOnChar_joinChar {c : Char} {Q : List Str} (hQ : Q ≠ [])
    (h : ∀ p ∈ Q, c ∉ p) : splitOnChar c (joinChar c Q) = Q := by
  induction Q with
  | nil => exact absurd rfl hQ
  | cons p t ih =>
    cases t with
    | nil => exact splitOnChar_of_not_mem (h p (List.mem_cons_self p []))
    | cons q t2 =>
      rw [joinChar_cons_cons, splitOnChar_append _ (h p (List.mem_cons_self p _)),
        ih (by simp) fun x hx => h x (List.mem_cons_of_mem p hx)]

theorem uspEntries_joinChar {Q : List Str} (hQ : Q ≠ [])
    (hne : ∀ p ∈ Q, p ≠ []) (hamp : ∀ p ∈ Q, '&' ∉ p) :
    uspEntries (joinChar '&' Q) = Q.map qsPair := by
  unfold uspEntries
  rw [splitOnChar_joinChar hQ hamp]
  clear hQ hamp
  induction Q with
  | nil => rfl
  | cons p t ih =>
    rw [List.filterMap_cons, List.map_cons]
    rw [if_neg (hne p (List.mem_cons_self p t))]
    rw [ih fun x hx => hne x (List.mem_cons_of_mem p hx)]

/-! ### Record lemmas -/

theorem setKey_nil (k v : Str) : setKey [] k v = [(k, v)] := rfl

theorem setKey_cons (k0 v0 : Str) (t : JSRecord) (k v : Str) :
    setKey ((k0, v0) :: t) k v =
      if k0 = k then (k0, v) :: t else (k0, v0) :: setKey t k v := rfl

theorem lookupRec_nil (q : Str) : lookupRec q [] = none := rfl

theorem lookupRec_cons (q k0 v0 : Str) (t : JSRecord) :
    lookupRec q ((k0, v0) :: t) = if k0 = q then some v0 else lookupRec q t := rfl

theorem lookup_setKey (r : JSRecord) (k v q : Str) :
    lookupRec q (setKey r k v) = if k = q then some v else lookupRec q r := by
  induction r with
  | nil =>
    rw [setKey_nil, lookupRec_cons, lookupRec_nil]
  | cons hd t ih =>
    obtain ⟨k0, v0⟩ := hd
    rw [setKey_cons]
    by_cases h0 : k0 = k
    · subst h0
      rw [if_pos rfl, lookupRec_cons, lookupRec_cons]
      by_cases hq : k0 = q <;> simp [hq]
    · rw [if_neg h0, lookupRec_cons, lookupRec_cons, ih]
      by_cases hq : k0 = q
      · subst hq
        have hkq : ¬ k = k0 := fun he => h0 he.symm
        simp [hkq]
      · simp [hq]

theorem lastVal_cons_ne {q k : Str} (v : Str) (t : List (Str × Str)) (h : ¬ k = q) :
    lastVal q ((k, v) :: t) = lastVal q t := by
  show (match lastVal q t with
        | some w => some w
        | none => if k = q then some v else none) = lastVal q t
  cases lastVal q t with
  | some w => rfl
  | none => simp [h]

theorem lastVal_cons_self {k : Str} (v : Str) (t : List (Str × Str)) :
    lastVal k ((k, v) :: t) = some ((lastVal k t).getD v) := by
  show (match lastVal k t with
        | some w => some w
        | none => if k = k then some v else none) = some ((lastVal k t).getD v)
  cases lastVal k t with
  | some w => rfl
  | none => simp

theorem lookup_fold_setKey (q : Str) (l : List (Str × Str)) :
    ∀ r0 : JSRecord,
      lookupRec q (List.foldl (fun r kv => setKey r kv.1 kv.2) r0 l) =
        match lastVal q l with
        | some w => some w
        | none => lookupRec q r0 := by
  induction l with
  | nil => intro r0; simp [lastVal]
  | cons kv t ih =>
    intro r0
    obtain ⟨k, v⟩ := kv
    rw [List.foldl_cons, ih (setKey r0 k v)]
    by_cases hk : k = q
    · subst hk
      rw [lastVal_cons_self]
      cases hl : lastVal k t with
      | some w => simp
      | none => simp [lookup_setKey]
    · rw [lastVal_cons_ne _ _ hk]
      cases hl : lastVal q t with
      | some w => rfl
      | none => simp [lookup_setKey, hk]

theorem lookup_append (q : Str) (a b : JSRecord) :
    lookupRec q (a ++ b) =
      match lookupRec q a with
      | some v => some v
      | none => lookupRec q b := by
  induction a with
  | nil => simp [lookupRec]
  | cons hd t ih =>
    obtain ⟨k0, v0⟩ := hd
    rw [List.cons_append, lookupRec_cons, lookupRec_cons]
    by_cases h : k0 = q
    · simp [h]
    · simp [h, ih]

theorem lookup_none_of_forall_ne {k : Str} {r : JSRecord}
    (h : ∀ kv ∈ r, kv.1 ≠ k) : lookupRec k r = none := by
  induction r with
  | nil => rfl
  | cons hd t ih =>
    unfold lookupRec
    rw [if_neg (h hd (List.mem_cons_self hd t)), ih fun kv hm => h kv (List.mem_cons_of_mem hd hm)]

theorem forall_ne_of_lookup_none {k : Str} {r : JSRecord}
    (h : lookupRec k r = none) : ∀ kv ∈ r, kv.1 ≠ k := by
  induction r with
  | nil => intro kv hm; cases hm
  | cons hd t ih =>
    unfold lookupRec at h
    intro kv hm
    rcases List.mem_cons.1 hm with h1 | h1
    · subst h1
      intro he
      rw [if_pos he] at h
      cases h
    · have ht : lookupRec k t = none := by
        by_cases he : hd.1 = k
        · rw [if_pos he] at h; cases h
        · rwa [if_neg he] at h
      exact ih ht kv h1

theorem setKey_append_new {r : JSRecord} {k : Str} (v : Str)
    (h : lookupRec k r = none) : setKey r k v = r ++ [(k, v)] := by
  induction r with
  | nil => rfl
  | cons hd t ih =>
    obtain ⟨k0, v0⟩ := hd
    unfold lookupRec at h
    have h0 : ¬ k0 = k := by
      intro he
      rw [if_pos he] at h
      cases h
    rw [if_neg h0] at h
    unfold setKey
    rw [if_neg h0, ih h, List.cons_append]

theorem foldl_setKey_disjoint (l : List (Str × Str)) :
    ∀ r0 : JSRecord, nodupKeys l = true → (∀ kv ∈ l, lookupRec kv.1 r0 = none) →
      List.foldl (fun r kv => setKey r kv.1 kv.2) r0 l = r0 ++ l := by
  induction l with
  | nil => intro r0 _ _; simp
  | cons kv t ih =>
    intro r0 hnd hdis
    obtain ⟨k, v⟩ := kv
    unfold nodupKeys at hnd
    rw [Bool.and_eq_true] at hnd
    obtain ⟨hany, hndt⟩ := hnd
    rw [List.foldl_cons, setKey_append_new v (hdis (k, v) (List.mem_cons_self _ t))]
    rw [ih (r0 ++ [(k, v)]) hndt ?_]
    · rw [List.append_assoc]
      rfl
    · intro kv2 hm
      rw [lookup_append]
      rw [hdis kv2 (List.mem_cons_of_mem _ hm)]
      apply lookup_none_of_forall_ne
      intro kv3 hm3
      rw [List.mem_singleton] at hm3
      subst hm3
      intro he
      have hta : t.any (fun kv0 => kv0.1 = k) = true := by
        rw [List.any_eq_true]
        exact ⟨kv2, hm, by simp only [decide_eq_true_eq]; exact he.symm⟩
      rw [hta] at hany
      exact absurd hany (by decide)

theorem foldl_setKey_nodup (l : List (Str × Str)) (hnd : nodupKeys l = true) :
    List.foldl (fun r kv => setKey r kv.1 kv.2) [] l = l := by
  have := foldl_setKey_disjoint l [] hnd (fun kv _ => rfl)
  simpa using this

theorem any_key_setKey (t : JSRecord) (k v q : Str) :
    ((setKey t k v).any fun kv => kv.1 = q) =
      ((t.any fun kv => kv.1 = q) || k = q) := by
  induction t with
  | nil => simp [setKey_nil]
  | cons hd t2 ih =>
    obtain ⟨k0, v0⟩ := hd
    rw [setKey_cons]
    by_cases h0 : k0 = k
    · subst h0
      by_cases hq : k0 = q <;> simp [List.any_cons, hq]
    · rw [if_neg h0]
      simp [List.any_cons, ih, Bool.or_assoc]

theorem nodupKeys_setKey {r : JSRecord} (h : nodupKeys r = true) (k v : Str) :
    nodupKeys (setKey r k v) = true := by
  induction r with
  | nil => simp [setKey_nil, nodupKeys]
  | cons hd t ih =>
    obtain ⟨k0, v0⟩ := hd
    unfold nodupKeys at h
    rw [Bool.and_eq_true] at h
    obtain ⟨hany, ht⟩ := h
    rw [setKey_cons]
    by_cases h0 : k0 = k
    · subst h0
      rw [if_pos rfl]
      unfold nodupKeys
      rw [Bool.and_eq_true]
      exact ⟨hany, ht⟩
    · rw [if_neg h0]
      unfold nodupKeys
      rw [Bool.and_eq_true]
      refine ⟨?_, ih ht⟩
      rw [any_key_setKey]
      have hk0 : decide (k = k0) = false := by
        simp only [decide_eq_false_iff_not]
        exact fun he => h0 he.symm
      simp only [Bool.not_eq_true'] at hany ⊢
      rw [hany, hk0]
      rfl

theorem dedupKeepFirstAux_irrel : ∀ f1 : Nat, ∀ (f2 : Nat) (l : List (Str × Str)),
    l.length ≤ f1 → l.length ≤ f2 → dedupKeepFirstAux f1 l = dedupKeepFirstAux f2 l := by
  intro f1
  induction f1 with
  | zero =>
    intro f2 l h1 _
    have : l = [] := List.length_eq_zero.1 (by omega)
    subst this
    cases f2 <;> rfl
  | succ f ih =>
    intro f2 l h1 h2
    cases l with
    | nil => cases f2 <;> rfl
    | cons hd rest =>
      obtain ⟨k, v⟩ := hd
      cases f2 with
      | zero => simp at h2
      | succ f2p =>
        show (k, (lastVal k rest).getD v) :: dedupKeepFirstAux f _ =
          (k, (lastVal k rest).getD v) :: dedupKeepFirstAux f2p _
        congr 1
        have hlen : (rest.filter fun kv => kv.1 ≠ k).length ≤ rest.length :=
          List.length_filter_le _ _
        simp only [List.length_cons] at h1 h2
        exact ih f2p _ (by omega) (by omega)

theorem dedupKeepFirst_cons (k v : Str) (rest : List (Str × Str)) :
    dedupKeepFirst ((k, v) :: rest) =
      (k, (lastVal k rest).getD v) ::
        dedupKeepFirst (rest.filter fun kv => kv.1 ≠ k) := by
  show dedupKeepFirstAux (rest.length + 1) ((k, v) :: rest) = _
  show (k, (lastVal k rest).getD v) :: dedupKeepFirstAux rest.length _ = _
  unfold dedupKeepFirst
  congr 1
  exact dedupKeepFirstAux_irrel rest.length _ _ (List.length_filter_le _ _) le_rfl

theorem lastVal_filter_keep {k : Str} {p : Str × Str → Bool} (l : List (Str × Str))
    (h : ∀ kv ∈ l, kv.1 = k → p kv = true) :
    lastVal k (l.filter p) = lastVal k l := by
  induction l with
  | nil => rfl
  | cons hd t ih =>
    obtain ⟨k0, v0⟩ := hd
    have iht := ih fun kv hm => h kv (List.mem_cons_of_mem _ hm)
    by_cases hk : k0 = k
    · subst hk
      have hp := h (k0, v0) (List.mem_cons_self _ t) rfl
      rw [List.filter_cons_of_pos hp, lastVal_cons_self, lastVal_cons_self, iht]
    · cases hp : p (k0, v0) with
      | false => rw [List.filter_cons_of_neg (by simp [hp]), lastVal_cons_ne _ _ hk, iht]
      | true => rw [List.filter_cons_of_pos hp, lastVal_cons_ne _ _ hk, lastVal_cons_ne _ _ hk, iht]

theorem map_setKey_lastVal {r0 : JSRecord} (hnd : nodupKeys r0 = true)
    {k : Str} (v : Str) (t : List (Str × Str)) (hlk : lookupRec k r0 ≠ none) :
    (setKey r0 k v).map (fun kv => (kv.1, (lastVal kv.1 t).getD kv.2))
      = r0.map (fun kv => (kv.1, (lastVal kv.1 ((k, v) :: t)).getD kv.2)) := by
  induction r0 with
  | nil => exact absurd rfl hlk
  | cons hd r ih =>
    obtain ⟨k0, v0⟩ := hd
    unfold nodupKeys at hnd
    rw [Bool.and_eq_true] at hnd
    obtain ⟨hany, hnd2⟩ := hnd
    rw [setKey_cons]
    by_cases h0 : k0 = k
    · subst h0
      rw [if_pos rfl, List.map_cons, List.map_cons]
      congr 1
      · rw [lastVal_cons_self]
        rfl
      · apply List.map_congr_left
        intro kv hm
        have hne : ¬ kv.1 = k0 := by
          intro he
          have hta : r.any (fun kv0 => kv0.1 = k0) = true :=
            List.any_eq_true.2 ⟨kv, hm, by simp [he]⟩
          rw [hta] at hany
          exact absurd hany (by decide)
        rw [lastVal_cons_ne _ _ fun he => hne he.symm]
    · rw [if_neg h0, List.map_cons, List.map_cons]
      have hlk2 : lookupRec k r ≠ none := by
        rw [lookupRec_cons, if_neg (fun he => h0 he)] at hlk
        exact hlk
      rw [ih hnd2 hlk2]
      congr 1
      rw [lastVal_cons_ne _ _ fun he => h0 he.symm]

theorem foldl_setKey_dedup (l : List (Str × Str)) :
    ∀ r0 : JSRecord, nodupKeys r0 = true →
      List.foldl (fun r kv => setKey r kv.1 kv.2) r0 l
        = r0.map (fun kv => (kv.1, (lastVal kv.1 l).getD kv.2))
          ++ dedupKeepFirst (l.filter fun kv => (lookupRec kv.1 r0).isNone) := by
  induction l with
  | nil =>
    intro r0 _
    show r0 = r0.map (fun kv => (kv.1, (lastVal kv.1 []).getD kv.2)) ++ dedupKeepFirst []
    have hmap : r0.map (fun kv => (kv.1, (lastVal kv.1 []).getD kv.2)) = r0 := by
      have hid : (fun kv : Str × Str => (kv.1, (lastVal kv.1 []).getD kv.2)) = id := by
        funext kv
        rfl
      rw [hid, List.map_id]
    rw [hmap, show dedupKeepFirst [] = [] from rfl, List.append_nil]
  | cons hd t ih =>
    intro r0 hnd
    obtain ⟨k, v⟩ := hd
    rw [List.foldl_cons]
    cases hlk : lookupRec k r0 with
    | some w =>
      rw [ih (setKey r0 k v) (nodupKeys_setKey hnd k v)]
      have hfc : ((k, v) :: t).filter (fun kv => (lookupRec kv.1 r0).isNone)
          = t.filter (fun kv => (lookupRec kv.1 r0).isNone) := by
        rw [List.filter_cons]
        simp [hlk]
      rw [hfc]
      congr 1
      · exact map_setKey_lastVal hnd v t (by rw [hlk]; exact fun h => Option.noConfusion h)
      · congr 1
        apply List.filter_congr
        intro kv hm
        rw [lookup_setKey]
        by_cases he : k = kv.1
        · rw [if_pos he, ← he, hlk]
          rfl
        · rw [if_neg he]
    | none =>
      have hne_all := forall_ne_of_lookup_none hlk
      have hnd3 : nodupKeys (r0 ++ [(k, v)]) = true := by
        rw [← setKey_append_new v hlk]
        exact nodupKeys_setKey hnd k v
      rw [setKey_append_new v hlk, ih (r0 ++ [(k, v)]) hnd3, List.map_append]
      have hfc : ((k, v) :: t).filter (fun kv => (lookupRec kv.1 r0).isNone)
          = (k, v) :: t.filter (fun kv => (lookupRec kv.1 r0).isNone) := by
        rw [List.filter_cons]
        simp [hlk]
      rw [hfc, dedupKeepFirst_cons]
      rw [List.append_assoc]
      congr 1
      · apply List.map_congr_left
        intro kv hm
        rw [lastVal_cons_ne _ _ fun he => (hne_all kv hm) he.symm]
      · rw [List.map_singleton, List.singleton_append]
        have hfil : (t.filter fun kv => (lookupRec kv.1 (r0 ++ [(k, v)])).isNone)
            = (t.filter fun kv => (lookupRec kv.1 r0).isNone).filter
                (fun kv => kv.1 ≠ k) := by
          rw [List.filter_filter]
          apply List.filter_congr
          intro kv hm
          rw [lookup_append]
          cases hl0 : lookupRec kv.1 r0 with
          | some w => simp
          | none =>
            rw [lookupRec_cons, lookupRec_nil]
            by_cases he : k = kv.1
            · simp [he]
            · have hsym : kv.1 ≠ k := fun hh => he hh.symm
              simp [if_neg he, hsym]
        have hlv : lastVal k (t.filter fun kv => (lookupRec kv.1 r0).isNone)
            = lastVal k t := by
          apply lastVal_filter_keep
          intro kv _ hk
          simp [hk, hlk]
        rw [hfil, hlv]

/-! ### Property-order (`jsEntries`) lemmas -/

theorem filter_eq_self_of_all {p : Str × Str → Bool} {l : List (Str × Str)}
    (h : ∀ x ∈ l, p x = true) : l.filter p = l := by
  induction l with
  | nil => rfl
  | cons a t ih =>
    rw [List.filter_cons_of_pos (h a (List.mem_cons_self a t)),
      ih fun x hx => h x (List.mem_cons_of_mem a hx)]

theorem filter_eq_nil_of_all {p : Str × Str → Bool} {l : List (Str × Str)}
    (h : ∀ x ∈ l, p x = false) : l.filter p = [] := by
  induction l with
  | nil => rfl
  | cons a t ih =>
    rw [List.filter_cons_of_neg (by simp [h a (List.mem_cons_self a t)]),
      ih fun x hx => h x (List.mem_cons_of_mem a hx)]

theorem insertByVal_perm (x : Str × Str) (l : List (Str × Str)) :
    (insertByVal x l).Perm (x :: l) := by
  induction l with
  | nil => exact List.Perm.refl _
  | cons y t ih =>
    unfold insertByVal
    split
    · exact List.Perm.refl _
    · exact (ih.cons y).trans (List.Perm.swap x y t)

theorem sortByVal_perm (l : List (Str × Str)) : (sortByVal l).Perm l := by
  induction l with
  | nil => exact List.Perm.refl _
  | cons y t ih =>
    show (insertByVal y (sortByVal t)).Perm (y :: t)
    exact (insertByVal_perm y (sortByVal t)).trans (ih.cons y)

theorem jsEntries_perm (r : JSRecord) : (jsEntries r).Perm r := by
  unfold jsEntries
  have h1 := (sortByVal_perm (r.filter fun kv => isIndexKey kv.1)).append_right
    (r.filter fun kv => !isIndexKey kv.1)
  exact h1.trans (List.filter_append_perm _ r)

theorem jsEntries_eq_self {r : JSRecord} (h : ∀ kv ∈ r, isIndexKey kv.1 = false) :
    jsEntries r = r := by
  unfold jsEntries
  rw [filter_eq_nil_of_all h, show sortByVal [] = [] from rfl, List.nil_append]
  apply filter_eq_self_of_all
  intro kv hm
  rw [h kv hm]
  rfl

theorem nodupKeys_iff_nodup {l : List (Str × Str)} :
    nodupKeys l = true ↔ (l.map Prod.fst).Nodup := by
  induction l with
  | nil => simp [nodupKeys]
  | cons hd t ih =>
    obtain ⟨k, v⟩ := hd
    unfold nodupKeys
    rw [Bool.and_eq_true, List.map_cons, List.nodup_cons]
    constructor
    · rintro ⟨hany, ht⟩
      refine ⟨?_, ih.1 ht⟩
      intro hmem
      rw [List.mem_map] at hmem
      obtain ⟨kv, hkv, hfst⟩ := hmem
      have hta : t.any (fun kv0 => kv0.1 = k) = true :=
        List.any_eq_true.2 ⟨kv, hkv, by simp [hfst]⟩
      rw [hta] at hany
      exact absurd hany (by decide)
    · rintro ⟨hnm, ht⟩
      refine ⟨?_, ih.2 ht⟩
      cases ha : t.any (fun kv0 => kv0.1 = k) with
      | false => rfl
      | true =>
        rw [List.any_eq_true] at ha
        obtain ⟨kv, hkv, hp⟩ := ha
        simp only [decide_eq_true_eq] at hp
        exact absurd (List.mem_map.2 ⟨kv, hkv, hp⟩) hnm

theorem lookup_eq_some_of_mem {l : JSRecord} (hnd : nodupKeys l = true) {k v : Str}
    (hm : (k, v) ∈ l) : lookupRec k l = some v := by
  induction l with
  | nil => cases hm
  | cons hd t ih =>
    obtain ⟨k0, v0⟩ := hd
    unfold nodupKeys at hnd
    rw [Bool.and_eq_true] at hnd
    obtain ⟨hany, ht⟩ := hnd
    rw [lookupRec_cons]
    rcases List.mem_cons.1 hm with h1 | h1
    · rw [Prod.mk.injEq] at h1
      obtain ⟨hk, hv⟩ := h1
      subst hk
      subst hv
      rw [if_pos rfl]
    · by_cases h0 : k0 = k
      · subst h0
        have hta : t.any (fun kv0 => kv0.1 = k0) = true :=
          List.any_eq_true.2 ⟨(k0, v), h1, by simp⟩
        rw [hta] at hany
        exact absurd hany (by decide)
      · rw [if_neg h0]
        exact ih ht h1

theorem mem_of_lookup_eq_some {l : JSRecord} {k v : Str}
    (h : lookupRec k l = some v) : (k, v) ∈ l := by
  induction l with
  | nil => cases h
  | cons hd t ih =>
    obtain ⟨k0, v0⟩ := hd
    rw [lookupRec_cons] at h
    by_cases h0 : k0 = k
    · rw [if_pos h0] at h
      subst h0
      injection h with hv
      subst hv
      exact List.mem_cons_self _ t
    · rw [if_neg h0] at h
      exact List.mem_cons_of_mem _ (ih h)

theorem nodupKeys_of_perm {a b : JSRecord} (hp : a.Perm b)
    (hnd : nodupKeys a = true) : nodupKeys b = true :=
  nodupKeys_iff_nodup.2 ((hp.map Prod.fst).nodup_iff.1 (nodupKeys_iff_nodup.1 hnd))

theorem lookup_of_perm {a b : JSRecord} (hnd : nodupKeys a = true)
    (hp : a.Perm b) (k : Str) : lookupRec k a = lookupRec k b := by
  have hndb := nodupKeys_of_perm hp hnd
  cases ha : lookupRec k a with
  | some v =>
    exact (lookup_eq_some_of_mem hndb (hp.subset (mem_of_lookup_eq_some ha))).symm
  | none =>
    cases hb : lookupRec k b with
    | none => rfl
    | some v =>
      have hm := hp.symm.subset (mem_of_lookup_eq_some hb)
      rw [lookup_eq_some_of_mem hnd hm] at ha
      cases ha

/-! ### More `lastVal` helpers -/

theorem lastVal_none_of_all_ne {k : Str} {l : List (Str × Str)}
    (h : ∀ kv ∈ l, ¬ kv.1 = k) : lastVal k l = none := by
  induction l with
  | nil => rfl
  | cons hd t ih =>
    obtain ⟨k0, v0⟩ := hd
    rw [lastVal_cons_ne _ _ (h (k0, v0) (List.mem_cons_self _ t))]
    exact ih fun kv hm => h kv (List.mem_cons_of_mem _ hm)

theorem lastVal_append (k : Str) (a b : List (Str × Str)) :
    lastVal k (a ++ b) =
      match lastVal k b with
      | some w => some w
      | none => lastVal k a := by
  induction a with
  | nil =>
    rw [List.nil_append]
    cases lastVal k b <;> rfl
  | cons hd t ih =>
    obtain ⟨k0, v0⟩ := hd
    rw [List.cons_append]
    by_cases h0 : k0 = k
    · subst h0
      rw [lastVal_cons_self, lastVal_cons_self, ih]
      cases lastVal k0 b <;> rfl
    · rw [lastVal_cons_ne _ _ h0, lastVal_cons_ne _ _ h0, ih]

theorem lastVal_append_right_none {k : Str} {b : List (Str × Str)}
    (a : List (Str × Str)) (h : ∀ kv ∈ b, ¬ kv.1 = k) :
    lastVal k (a ++ b) = lastVal k a := by
  rw [lastVal_append, lastVal_none_of_all_ne h]

/-! ### Query-loop characterization for the Eip parser -/

theorem qStep_fold (L : List (Str × Str)) :
    ∀ st0 : Eip.QState,
      L.foldl Eip.qStep st0 =
        { value := match lastVal "value".toList L with
            | some w => some w
            | none => st0.value,
          gas := match lastVal "gas".toList L with
            | some w => some w
            | none => st0.gas,
          gasLimit := match lastVal "gasLimit".toList L with
            | some w => some w
            | none => st0.gasLimit,
          gasPrice := match lastVal "gasPrice".toList L with
            | some w => some w
            | none => st0.gasPrice,
          params := List.foldl (fun r kv => setKey r kv.1 kv.2) st0.params
            (L.filter fun kv => !isRecognizedKey kv.1) } := by
  induction L with
  | nil => intro st0; rfl
  | cons kv L2 ih =>
    intro st0
    rw [List.foldl_cons, ih (Eip.qStep st0 kv)]
    obtain ⟨k, v⟩ := kv
    rw [Eip.QState.mk.injEq]
    by_cases h1 : k = "value".toList
    · subst h1
      have hrec : isRecognizedKey "value".toList = true := by decide
      rw [List.filter_cons_of_neg (by rw [hrec]; decide)]
      refine ⟨?_, ?_, ?_, ?_, ?_⟩
      · rw [lastVal_cons_self]
        show _ = some ((lastVal "value".toList L2).getD v)
        cases lastVal "value".toList L2 <;> rfl
      · rw [lastVal_cons_ne _ _ (by decide)]
        rfl
      · rw [lastVal_cons_ne _ _ (by decide)]
        rfl
      · rw [lastVal_cons_ne _ _ (by decide)]
        rfl
      · rfl
    · by_cases h2 : k = "gas".toList
      · subst h2
        have hrec : isRecognizedKey "gas".toList = true := by decide
        rw [List.filter_cons_of_neg (by rw [hrec]; decide)]
        refine ⟨?_, ?_, ?_, ?_, ?_⟩
        · rw [lastVal_cons_ne _ _ (by decide)]
          rfl
        · rw [lastVal_cons_self]
          show _ = some ((lastVal "gas".toList L2).getD v)
          cases lastVal "gas".toList L2 <;> rfl
        · rw [lastVal_cons_ne _ _ (by decide)]
          rfl
        · rw [lastVal_cons_ne _ _ (by decide)]
          rfl
        · rfl
      · by_cases h3 : k = "gasLimit".toList
        · subst h3
          have hrec : isRecognizedKey "gasLimit".toList = true := by decide
          rw [List.filter_cons_of_neg (by rw [hrec]; decide)]
          refine ⟨?_, ?_, ?_, ?_, ?_⟩
          · rw [lastVal_cons_ne _ _ (by decide)]
            rfl
          · rw [lastVal_cons_ne _ _ (by decide)]
            rfl
          · rw [lastVal_cons_self]
            show _ = some ((lastVal "gasLimit".toList L2).getD v)
            cases lastVal "gasLimit".toList L2 <;> rfl
          · rw [lastVal_cons_ne _ _ (by decide)]
            rfl
          · rfl
        · by_cases h4 : k = "gasPrice".toList
          · subst h4
            have hrec : isRecognizedKey "gasPrice".toList = true := by decide
            rw [List.filter_cons_of_neg (by rw [hrec]; decide)]
            refine ⟨?_, ?_, ?_, ?_, ?_⟩
            · rw [lastVal_cons_ne _ _ (by decide)]
              rfl
            · rw [lastVal_cons_ne _ _ (by decide)]
              rfl
            · rw [lastVal_cons_ne _ _ (by decide)]
              rfl
            · rw [lastVal_cons_self]
              show _ = some ((lastVal "gasPrice".toList L2).getD v)
              cases lastVal "gasPrice".toList L2 <;> rfl
            · rfl
          · have hrec : isRecognizedKey k = false := by
              unfold isRecognizedKey
              rw [Bool.or_eq_false_iff, Bool.or_eq_false_iff, Bool.or_eq_false_iff]
              refine ⟨⟨⟨?_, ?_⟩, ?_⟩, ?_⟩ <;>
                simp only [decide_eq_false_iff_not] <;> assumption
            have hstep : Eip.qStep st0 (k, v) =
                { st0 with params := setKey st0.params k v } := by
              unfold Eip.qStep
              rw [if_neg h1, if_neg h2, if_neg h3, if_neg h4]
            rw [List.filter_cons_of_pos (by rw [hrec]; rfl), hstep]
            refine ⟨?_, ?_, ?_, ?_, ?_⟩
            · rw [lastVal_cons_ne _ _ h1]
            · rw [lastVal_cons_ne _ _ h2]
            · rw [lastVal_cons_ne _ _ h3]
            · rw [lastVal_cons_ne _ _ h4]
            · rw [List.foldl_cons]

/-! ### Parse-shape helper lemmas -/

theorem Eip.parse_none_of_no_scheme {url : Str} (h : strStarts ethScheme url = false) :
    Eip.parseEIP681URL url = none := by
  simp [Eip.parseEIP681URL, h]

theorem Eip2.parse_none_of_no_scheme2 {url : Str} (h : strStarts ethScheme url = false) :
    Eip2.parseEIP681URL url = none := by
  simp [Eip2.parseEIP681URL, h]

theorem Eip.parse_isSome_of_scheme {url : Str} (h : strStarts ethScheme url = true) :
    (Eip.parseEIP681URL url).isSome = true := by
  simp [Eip.parseEIP681URL, h]

theorem Eip2.parse_isSome_of_scheme2 {url : Str} (h : strStarts ethScheme url = true) :
    (Eip2.parseEIP681URL url).isSome = true := by
  simp [Eip2.parseEIP681URL, h]

theorem Eip.parse_plain (t : Str) (h1 : '@' ∉ t) (h2 : '/' ∉ t) (h3 : '?' ∉ t) :
    Eip.parseEIP681URL (ethScheme ++ t) =
      some { chainId := JSNum.undef, address := t, functionName := none,
             value := none, gas := none, gasLimit := none, gasPrice := none,
             parameters := none } := by
  unfold Eip.parseEIP681URL
  rw [if_pos (by rw [strStarts_append_self]), drop_scheme_append]
  simp only [splitOnChar_of_not_mem h3, List.headD_cons, List.getElem?_cons_succ,
    List.getElem?_nil, contains_false_of_not_mem h1, contains_false_of_not_mem h2,
    Bool.false_eq_true, if_false]
  rfl

theorem Eip2.parse_plain2 (t : Str) (h1 : '@' ∉ t) (h2 : '/' ∉ t) (h3 : '?' ∉ t) :
    Eip2.parseEIP681URL (ethScheme ++ t) =
      some { scheme := "ethereum".toList, address := Eip2.toChecksumAddress t,
             chainId := JSNum.undef, functionName := none, parameters := none } := by
  unfold Eip2.parseEIP681URL
  rw [if_pos (by rw [strStarts_append_self]), drop_scheme_append]
  simp only [splitOnChar_of_not_mem h3, List.headD_cons, List.getElem?_cons_succ,
    List.getElem?_nil, contains_false_of_not_mem h1, contains_false_of_not_mem h2,
    Bool.false_eq_true, if_false, Bool.and_false]
  rfl

/-! ### Character-class utilities -/

theorem toNat_ofNat_lt {k : Nat} (h : k < 55296) : (Char.ofNat k).toNat = k := by
  unfold Char.ofNat
  split
  · rfl
  · rename_i hn
    exact absurd (Or.inl h) hn

theorem char_eq_iff_toNat {a b : Char} : a = b ↔ a.toNat = b.toNat := by
  constructor
  · intro h
    rw [h]
  · intro h
    rw [← Char.ofNat_toNat a, ← Char.ofNat_toNat b, h]

theorem isHexDig_bounds {c : Char} (h : isHexDig c = true) :
    (48 ≤ c.toNat ∧ c.toNat ≤ 57) ∨ (97 ≤ c.toNat ∧ c.toNat ≤ 102) ∨
      (65 ≤ c.toNat ∧ c.toNat ≤ 70) := by
  unfold isHexDig isDig at h
  simp only [Bool.or_eq_true, Bool.and_eq_true, decide_eq_true_eq] at h
  rcases h with (⟨h1, h2⟩ | ⟨h1, h2⟩) | ⟨h1, h2⟩
  · exact Or.inl ⟨h1, h2⟩
  · exact Or.inr (Or.inl ⟨h1, h2⟩)
  · exact Or.inr (Or.inr ⟨h1, h2⟩)

theorem asciiLower_toNat (c : Char) :
    (asciiLower c).toNat =
      if 65 ≤ c.toNat ∧ c.toNat ≤ 90 then c.toNat + 32 else c.toNat := by
  unfold asciiLower
  split
  · rename_i h
    simp only [Bool.and_eq_true, decide_eq_true_eq] at h
    obtain ⟨h1, h2⟩ := h
    have h1n : 65 ≤ c.toNat := h1
    have h2n : c.toNat ≤ 90 := h2
    rw [toNat_ofNat_lt (by omega), if_pos ⟨h1n, h2n⟩]
  · rename_i h
    simp only [Bool.and_eq_true, decide_eq_true_eq, not_and] at h
    by_cases h1 : 65 ≤ c.toNat
    · have h2 : ¬ c.toNat ≤ 90 := by
        intro h2n
        exact absurd h2n (h h1)
      rw [if_neg (by omega)]
    · rw [if_neg (by omega)]

theorem asciiLower_hex_ne_at {c : Char} (h : isHexDig c = true) :
    ¬ asciiLower c = '@' := by
  intro he
  have ht := char_eq_iff_toNat.1 he
  rw [asciiLower_toNat] at ht
  have hb := isHexDig_bounds h
  have hat : ('@').toNat = 64 := by decide
  rw [hat] at ht
  split at ht <;> omega

theorem isHexAddress40_shape {s : Str} (h : isHexAddress40 s = true) :
    ∃ rest, s = '0' :: 'x' :: rest ∧ rest.length = 40 ∧
      ∀ d ∈ rest, isHexDig d = true := by
  unfold isHexAddress40 at h
  split at h
  · rename_i rest
    rw [Bool.and_eq_true] at h
    obtain ⟨h1, h2⟩ := h
    refine ⟨rest, rfl, by simpa using h1, ?_⟩
    rw [List.all_eq_true] at h2
    exact fun d hd => h2 d hd
  · cases h

theorem at_not_mem_checksumAddress {s : Str} (hs : isHexAddress40 s = true) :
    '@' ∉ checksumAddress s := by
  obtain ⟨rest, hsh, _, hdig⟩ := isHexAddress40_shape hs
  unfold checksumAddress
  intro hm
  rcases List.mem_cons.1 hm with h1 | h1
  · cases h1
  · rcases List.mem_cons.1 h1 with h2 | h2
    · cases h2
    · rw [List.mem_map] at h2
      obtain ⟨d, hd, hde⟩ := h2
      rw [hsh] at hd
      have : isHexDig d = true := hdig d (by simpa using hd)
      exact asciiLower_hex_ne_at this hde

theorem at_not_mem_toChecksum {s : Str} (h : '@' ∉ s) :
    '@' ∉ Eip2.toChecksumAddress s := by
  unfold Eip2.toChecksumAddress getAddr
  split
  · rename_i hv
    split at hv
    · rename_i hx
      injection hv with hv2
      rw [← hv2]
      exact at_not_mem_checksumAddress hx
    · cases hv
  · rename_i hv
    exact h

theorem mem_joinChar {c sep : Char} {Q : List Str} (h : c ∈ joinChar sep Q) :
    c = sep ∨ ∃ p ∈ Q, c ∈ p := by
  induction Q with
  | nil => cases h
  | cons p t ih =>
    cases t with
    | nil => exact Or.inr ⟨p, List.mem_cons_self p [], h⟩
    | cons q t2 =>
      rw [joinChar_cons_cons] at h
      rcases List.mem_append.1 h with h1 | h1
      · exact Or.inr ⟨p, List.mem_cons_self p _, h1⟩
      · rcases List.mem_cons.1 h1 with h2 | h2
        · exact Or.inl h2
        · rcases ih h2 with h3 | ⟨p2, hp2, hc2⟩
          · exact Or.inl h3
          · exact Or.inr ⟨p2, List.mem_cons_of_mem p hp2, hc2⟩

/-! ## The claims -/

/-- C3: encoding the same syntactically valid address in any valid casing
(the regex requires the literal `0x`, so the casing varies over the 40 hex
digits) produces an identical output string: the checksumming encoder
normalizes the address before emission, and its checksum is a function of
the lower-cased address. -/
theorem c3_checksum_invariance (p : EIP681Params) (a2 : Str)
    (h1 : isHexAddress40 p.address = true) (h2 : isHexAddress40 a2 = true)
    (hcase : p.address.map asciiLower = a2.map asciiLower) :
    Eip2.generateEIP681URL { p with address := a2 } = Eip2.generateEIP681URL p := by
  have hck : Eip2.toChecksumAddress a2 = Eip2.toChecksumAddress p.address := by
    unfold Eip2.toChecksumAddress getAddr
    rw [if_pos h1, if_pos h2]
    unfold checksumAddress
    have hdrop : (a2.drop 2).map asciiLower = (p.address.drop 2).map asciiLower := by
      rw [List.map_drop, List.map_drop, hcase]
    rw [hdrop]
  unfold Eip2.generateEIP681URL
  rw [hck]
  rfl

/-- C3 witness: the all-upper-digit and all-lower-digit casings of one
address encode to the same URL string. -/
theorem c3_checksum_invariance_witness :
    Eip2.generateEIP681URL
        { address := "0xABCDEF0123456789ABCDEF0123456789ABCDEF01".toList,
          value := some "5".toList } =
      Eip2.generateEIP681URL
        { address := "0xabcdef0123456789abcdef0123456789abcdef01".toList,
          value := some "5".toList } :=
  c3_checksum_invariance
    { address := "0xabcdef0123456789abcdef0123456789abcdef01".toList,
      value := some "5".toList }
    "0xABCDEF0123456789ABCDEF0123456789ABCDEF01".toList
    (by decide) (by decide) (by decide)

/-- C8: when checksum normalization fails (the address does not match the
`0x` + 40-hex-digits syntax), `toChecksumAddress` returns the original
string unchanged, and the encoder emits it verbatim after the scheme: the
encoder never throws, it degrades to pass-through. -/
theorem c8_encoder_fallback (p : EIP681Params) (h : isHexAddress40 p.address = false) :
    Eip2.toChecksumAddress p.address = p.address ∧
      ∃ suffix : Str, Eip2.generateEIP681URL p = ethScheme ++ p.address ++ suffix := by
  have ht : Eip2.toChecksumAddress p.address = p.address := by
    unfold Eip2.toChecksumAddress getAddr
    simp [h]
  refine ⟨ht, ?_⟩
  unfold Eip2.generateEIP681URL
  rw [ht]
  by_cases hq : Eip2.queryPieces p ≠ []
  · rw [if_pos hq]
    exact ⟨chainSegment p.chainId ++ fnSegment p.functionName ++
      '?' :: joinChar '&' (Eip2.queryPieces p), by simp [List.append_assoc]⟩
  · rw [if_neg hq]
    exact ⟨chainSegment p.chainId ++ fnSegment p.functionName,
      by simp [List.append_assoc]⟩

/-- C8 witness at the malformed address `"zz"`. -/
theorem c8_encoder_fallback_witness :
    Eip2.toChecksumAddress "zz".toList = "zz".toList ∧
      ∃ suffix : Str,
        Eip2.generateEIP681URL { address := "zz".toList } =
          ethScheme ++ "zz".toList ++ suffix :=
  c8_encoder_fallback { address := "zz".toList } (by decide)

/-- C9: both decoders return `null` — not an exception — for every input
that does not begin with the literal scheme prefix `ethereum:`; in the
embedding both are total functions, so no input faults. -/
theorem c9_decode_null_no_scheme (url : Str)
    (h : strStarts ethScheme url = false) :
    Eip.parseEIP681URL url = none ∧ Eip2.parseEIP681URL url = none :=
  ⟨Eip.parse_none_of_no_scheme h, Eip2.parse_none_of_no_scheme2 h⟩

/-- C9 witness at `"not-a-url"`. -/
theorem c9_decode_null_no_scheme_witness :
    Eip.parseEIP681URL "not-a-url".toList = none ∧
      Eip2.parseEIP681URL "not-a-url".toList = none :=
  c9_decode_null_no_scheme "not-a-url".toList (by decide)

/-- C10: every input that begins with `ethereum:` decodes to a non-null
record in both decoders, and for `ethereum:` followed by plain non-address
text (no `@`, `/`, `?`) the returned address field is exactly that
remaining text — possibly empty — rather than a failure. -/
theorem c10_decode_total_with_scheme :
    (∀ url : Str, strStarts ethScheme url = true →
      (Eip.parseEIP681URL url).isSome = true ∧
        (Eip2.parseEIP681URL url).isSome = true) ∧
    (∀ t : Str, '@' ∉ t → '/' ∉ t → '?' ∉ t → isHexAddress40 t = false →
      (Eip.parseEIP681URL (ethScheme ++ t)).map Eip.EipResult.address = some t ∧
        (Eip2.parseEIP681URL (ethScheme ++ t)).map Eip2.ParsedURL.address = some t) := by
  constructor
  · intro url h
    exact ⟨Eip.parse_isSome_of_scheme h, Eip2.parse_isSome_of_scheme2 h⟩
  · intro t h1 h2 h3 h4
    constructor
    · rw [Eip.parse_plain t h1 h2 h3]
      rfl
    · rw [Eip2.parse_plain2 t h1 h2 h3]
      show some (Eip2.toChecksumAddress t) = some t
      unfold Eip2.toChecksumAddress getAddr
      simp [h4]

/-- C4: `validateEIP681URL url` is true exactly when the URL decodes to a
non-null record whose address passes address-syntax validation
(`validateAddress`) and whose chain id is either absent or a positive
integer; it is false — a value, never a thrown fault, since the embedded
function is total — for a missing scheme, a decode failure, an invalid
address, or a non-positive / NaN chain id. -/
theorem c4_validator_agreement (url : Str) :
    Eip2.validateEIP681URL url = true ↔
      ∃ r, Eip2.parseEIP681URL url = some r ∧
        Eip2.validateAddress r.address = true ∧
        (r.chainId = JSNum.undef ∨
          ∃ n : Int, r.chainId = JSNum.num n ∧ 0 < n) := by
  cases hs : strStarts ethScheme url with
  | false =>
    rw [Eip2.parse_none_of_no_scheme2 hs]
    unfold Eip2.validateEIP681URL
    rw [hs]
    simp
  | true =>
    obtain ⟨r, hr⟩ := Option.isSome_iff_exists.1 (Eip2.parse_isSome_of_scheme2 hs)
    cases hva : Eip2.validateAddress r.address with
    | false =>
      have hval : Eip2.validateEIP681URL url = false := by
        unfold Eip2.validateEIP681URL
        rw [hs, hr]
        simp [hva]
      rw [hval]
      constructor
      · intro hft
        cases hft
      · rintro ⟨r2, hr2, hva2, _⟩
        rw [hr] at hr2
        injection hr2 with he
        subst he
        rw [hva] at hva2
        cases hva2
    | true =>
      have hval : Eip2.validateEIP681URL url =
          (match r.chainId with
           | JSNum.undef => true
           | c => Eip2.validateChainId c) := by
        unfold Eip2.validateEIP681URL
        rw [hs, hr]
        simp [hva]
      rw [hval]
      cases hc : r.chainId with
      | undef =>
        constructor
        · intro _
          exact ⟨r, hr, hva, Or.inl hc⟩
        · intro _
          rfl
      | nan =>
        constructor
        · intro hft
          exact absurd hft (by decide)
        · rintro ⟨r2, hr2, _, hcond⟩
          rw [hr] at hr2
          injection hr2 with he
          subst he
          rcases hcond with h0 | ⟨n, hn, _⟩
          · rw [hc] at h0
            cases h0
          · rw [hc] at hn
            cases hn
      | num n =>
        show Eip2.validateChainId (JSNum.num n) = true ↔ _
        unfold Eip2.validateChainId
        simp only [decide_eq_true_eq]
        constructor
        · intro hpos
          exact ⟨r, hr, hva, Or.inr ⟨n, hc, hpos⟩⟩
        · rintro ⟨r2, hr2, _, hcond⟩
          rw [hr] at hr2
          injection hr2 with he
          subst he
          rcases hcond with h0 | ⟨m, hm, hmpos⟩
          · rw [hc] at h0
            cases h0
          · rw [hc] at hm
            injection hm with he2
            subst he2
            exact hmpos

/-- C1 counterexample: a syntactically valid, checksum-normalized intent
with a chain id other than 1 and a function name; the encoder emits
`ethereum:<addr>@5/transfer`, but the decoder of the same file loses the
function name (the decoded record has `functionName` absent), so
`decode(encode(intent))` does not reproduce a field the encoder did emit. -/
theorem c1_counterexample :
    WellFormed { address := "0xaaaaaaaaaaaaaaaaaaaaaaaaaaaaaaaaaaaaaaaa".toList,
                 chainId := JSNum.num 5,
                 functionName := some "transfer".toList } = true ∧
    Eip2.toChecksumAddress "0xaaaaaaaaaaaaaaaaaaaaaaaaaaaaaaaaaaaaaaaa".toList
        = "0xaaaaaaaaaaaaaaaaaaaaaaaaaaaaaaaaaaaaaaaa".toList ∧
    (Eip.parseEIP681URL (Eip.generateEIP681URL
        { address := "0xaaaaaaaaaaaaaaaaaaaaaaaaaaaaaaaaaaaaaaaa".toList,
          chainId := JSNum.num 5,
          functionName := some "transfer".toList })).map
        Eip.EipResult.functionName = some none ∧
    some "transfer".toList ≠ (none : Option Str) := by decide

/-- C2 counterexample: `"ethereum:zz@1"` decodes with `chainId = 1`, but
re-encoding drops the `@1` segment (the encoder omits chain id 1), so the
second decode returns an absent chain id: decode ∘ encode ∘ decode ≠
decode. -/
theorem c2_counterexample :
    (Eip2.parseEIP681URL "ethereum:zz@1".toList).map Eip2.ParsedURL.chainId
        = some (JSNum.num 1) ∧
    ((Eip2.parseEIP681URL "ethereum:zz@1".toList).bind
        (fun r => Eip2.parseEIP681URL
          (Eip2.generateEIP681URL (Eip2.toParams r)))).map Eip2.ParsedURL.chainId
        = some JSNum.undef ∧
    JSNum.undef ≠ JSNum.num 1 := by decide

/-- C5 counterexample: for `"ethereum:a?x=1&2=b"` the decoder stores the
pairs in encounter order `x`, `2`, but the returned object enumerates the
array-index-like key `"2"` first (ECMAScript ordinary own-property order),
so the parameters mapping does not preserve encounter order. -/
theorem c5_counterexample :
    (Eip.parseEIP681URL "ethereum:a?x=1&2=b".toList).map
        (fun r => r.parameters.map jsEntries)
      = some (some [("2".toList, "b".toList), ("x".toList, "1".toList)]) ∧
    [("2".toList, "b".toList), ("x".toList, "1".toList)]
      ≠ [("x".toList, "1".toList), ("2".toList, "b".toList)] := by decide

/-- C6 counterexample: chain id `0` is present and different from 1, yet
the encoder emits no `@0` segment — `0` is falsy in the emission guard
`chainId && chainId !== 1`. -/
theorem c6_counterexample :
    Eip2.generateEIP681URL
        { address := "0xaaaaaaaaaaaaaaaaaaaaaaaaaaaaaaaaaaaaaaaa".toList,
          chainId := JSNum.num 0 }
      = "ethereum:0xaaaaaaaaaaaaaaaaaaaaaaaaaaaaaaaaaaaaaaaa".toList ∧
    '@' ∉ Eip2.generateEIP681URL
        { address := "0xaaaaaaaaaaaaaaaaaaaaaaaaaaaaaaaaaaaaaaaa".toList,
          chainId := JSNum.num 0 } ∧
    JSNum.num 0 ≠ JSNum.undef ∧ JSNum.num 0 ≠ JSNum.num 1 := by decide

theorem not_mem_of_contains_false {s : Str} {c : Char} (h : s.contains c = false) :
    c ∉ s := by
  intro hm
  rw [(contains_true_iff s c).2 hm] at h
  cases h

theorem mem_valuePiece {piece : Str} {o : Option Str} (h : piece ∈ valuePiece o) :
    ∃ v, o = some v ∧ piece = "value=".toList ++ v := by
  cases o with
  | none => cases h
  | some v =>
    simp only [valuePiece] at h
    split at h
    · rw [List.mem_singleton] at h
      exact ⟨v, rfl, h⟩
    · cases h

theorem mem_gasPiece {piece key : Str} {o : Option Str} (h : piece ∈ gasPiece key o) :
    ∃ g, o = some g ∧ piece = key ++ g := by
  cases o with
  | none => cases h
  | some g =>
    simp only [gasPiece] at h
    split at h
    · rw [List.mem_singleton] at h
      exact ⟨g, rfl, h⟩
    · cases h

theorem mem_fieldPieces {p : EIP681Params} {piece : Str} (h : piece ∈ fieldPieces p) :
    (∃ v, p.value = some v ∧ piece = "value=".toList ++ v) ∨
    (∃ g, p.gas = some g ∧ piece = "gas=".toList ++ g) ∨
    (∃ g, p.gasLimit = some g ∧ piece = "gasLimit=".toList ++ g) ∨
    (∃ g, p.gasPrice = some g ∧ piece = "gasPrice=".toList ++ g) := by
  unfold fieldPieces at h
  rcases List.mem_append.1 h with h1 | h1
  · rcases List.mem_append.1 h1 with h2 | h2
    · rcases List.mem_append.1 h2 with h3 | h3
      · exact Or.inl (mem_valuePiece h3)
      · exact Or.inr (Or.inl (mem_gasPiece h3))
    · exact Or.inr (Or.inr (Or.inl (mem_gasPiece h2)))
  · exact Or.inr (Or.inr (Or.inr (mem_gasPiece h1)))

theorem at_not_mem_queryPieces2 {p : EIP681Params}
    (hV : ∀ v, p.value = some v → '@' ∉ v)
    (hG : ∀ v, p.gas = some v → '@' ∉ v)
    (hGL : ∀ v, p.gasLimit = some v → '@' ∉ v)
    (hGP : ∀ v, p.gasPrice = some v → '@' ∉ v)
    (hP : ∀ r, p.parameters = some r → ∀ kv ∈ r, '@' ∉ kv.1) :
    ∀ piece ∈ Eip2.queryPieces p, '@' ∉ piece := by
  intro piece hp
  unfold Eip2.queryPieces at hp
  rcases List.mem_append.1 hp with hp1 | hp1
  · rcases mem_fieldPieces hp1 with ⟨v, hv, he⟩ | ⟨v, hv, he⟩ | ⟨v, hv, he⟩ | ⟨v, hv, he⟩ <;>
      subst he <;> intro hm <;> rcases List.mem_append.1 hm with h2 | h2
    · exact absurd h2 (by decide)
    · exact hV v hv h2
    · exact absurd h2 (by decide)
    · exact hG v hv h2
    · exact absurd h2 (by decide)
    · exact hGL v hv h2
    · exact absurd h2 (by decide)
    · exact hGP v hv h2
  · cases hpp : p.parameters with
    | none => rw [hpp] at hp1; cases hp1
    | some r =>
      rw [hpp] at hp1
      unfold optParamPieces at hp1
      rw [List.mem_map] at hp1
      obtain ⟨kv, hkv, he⟩ := hp1
      subst he
      intro hm
      unfold Eip2.paramPiece at hm
      rcases List.mem_append.1 hm with h2 | h2
      · exact hP r hpp kv ((jsEntries_perm r).subset hkv) h2
      · rcases List.mem_cons.1 h2 with h3 | h3
        · cases h3
        · exact not_mem_encodeURIComponent _ (by decide) (by decide) (by decide) h3

/-- C6 amended: under JavaScript truthiness the chain segment is emitted
exactly when the chain id is an integer different from both 0 and 1 —
chain id 0, being falsy in the guard `chainId && chainId !== 1`, is
omitted exactly like an absent id or the default network id 1.  Stated
observationally on the checksumming encoder: an `@` occurs in the output
iff such a chain id is present, and when it is, the output contains the
full `@<chainId>` segment. -/
theorem c6_chain_emission_amended (p : EIP681Params) (h : noAtParams p = true) :
    (('@' ∈ Eip2.generateEIP681URL p) ↔ chainEmits p.chainId = true) ∧
    (∀ n : Int, p.chainId = JSNum.num n → n ≠ 0 → n ≠ 1 →
      List.IsInfix ('@' :: intToDec n) (Eip2.generateEIP681URL p)) := by
  simp only [noAtParams, Bool.and_eq_true] at h
  obtain ⟨⟨⟨⟨⟨⟨⟨hA, hC⟩, hF⟩, hV⟩, hG⟩, hGL⟩, hGP⟩, hP⟩ := h
  have hAm : '@' ∉ Eip2.toChecksumAddress p.address :=
    at_not_mem_toChecksum (not_mem_of_contains_false (by simpa using hA))
  have hFm : '@' ∉ fnSegment p.functionName := by
    cases hf : p.functionName with
    | none => simp [fnSegment]
    | some f =>
      rw [hf] at hF
      simp only [fnSegment]
      split
      · intro hm
        rcases List.mem_cons.1 hm with h1 | h1
        · cases h1
        · exact not_mem_of_contains_false (by simpa using hF) h1
      · simp
  have hQm : ∀ piece ∈ Eip2.queryPieces p, '@' ∉ piece := by
    apply at_not_mem_queryPieces2
    · intro v hv
      rw [hv] at hV
      exact not_mem_of_contains_false (by simpa using hV)
    · intro v hv
      rw [hv] at hG
      exact not_mem_of_contains_false (by simpa using hG)
    · intro v hv
      rw [hv] at hGL
      exact not_mem_of_contains_false (by simpa using hGL)
    · intro v hv
      rw [hv] at hGP
      exact not_mem_of_contains_false (by simpa using hGP)
    · intro r hr kv hkv
      rw [hr] at hP
      rw [List.all_eq_true] at hP
      exact not_mem_of_contains_false (by simpa using hP kv hkv)
  have hQs : ∀ s ∈ ('?' :: joinChar '&' (Eip2.queryPieces p) : Str), s ≠ '@' → True := fun _ _ _ => trivial
  have hQm2 : '@' ∉ ('?' :: joinChar '&' (Eip2.queryPieces p) : Str) := by
    intro hm
    rcases List.mem_cons.1 hm with h1 | h1
    · cases h1
    · rcases mem_joinChar h1 with h2 | ⟨pc, hpc, hin⟩
      · cases h2
      · exact hQm pc hpc hin
  constructor
  · constructor
    · intro hm
      by_contra hne
      have hCS : chainSegment p.chainId = [] := by
        cases hc : p.chainId with
        | num n =>
          rw [hc] at hne
          simp only [chainSegment]
          rw [if_neg]
          intro hcond
          apply hne
          simp only [chainEmits, Bool.and_eq_true, decide_eq_true_eq]
          exact hcond
        | undef => rfl
        | nan => rfl
      unfold Eip2.generateEIP681URL at hm
      rw [hCS, List.append_nil] at hm
      by_cases hq : Eip2.queryPieces p ≠ []
      · rw [if_pos hq] at hm
        rcases List.mem_append.1 hm with h1 | h1
        · rcases List.mem_append.1 h1 with h2 | h2
          · rcases List.mem_append.1 h2 with h3 | h3
            · exact absurd h3 (by decide)
            · exact hAm h3
          · exact hFm h2
        · exact hQm2 h1
      · rw [if_neg hq] at hm
        rcases List.mem_append.1 hm with h1 | h1
        · rcases List.mem_append.1 h1 with h2 | h2
          · exact absurd h2 (by decide)
          · exact hAm h2
        · exact hFm h1
    · intro hce
      cases hc : p.chainId with
      | undef => rw [hc] at hce; exact absurd hce (by decide)
      | nan => rw [hc] at hce; exact absurd hce (by decide)
      | num n =>
        rw [hc] at hce
        simp only [chainEmits, Bool.and_eq_true, decide_eq_true_eq] at hce
        have hCS : chainSegment p.chainId = '@' :: intToDec n := by
          rw [hc]
          simp only [chainSegment]
          rw [if_pos hce]
        unfold Eip2.generateEIP681URL
        rw [hCS]
        by_cases hq : Eip2.queryPieces p ≠ []
        · rw [if_pos hq]
          apply List.mem_append.2
          left
          apply List.mem_append.2
          left
          apply List.mem_append.2
          right
          exact List.mem_cons_self _ _
        · rw [if_neg hq]
          apply List.mem_append.2
          left
          apply List.mem_append.2
          right
          exact List.mem_cons_self _ _
  · intro n hc hn0 hn1
    have hCS : chainSegment p.chainId = '@' :: intToDec n := by
      rw [hc]
      simp only [chainSegment]
      rw [if_pos ⟨hn0, hn1⟩]
    unfold Eip2.generateEIP681URL
    rw [hCS]
    by_cases hq : Eip2.queryPieces p ≠ []
    · rw [if_pos hq]
      exact ⟨ethScheme ++ Eip2.toChecksumAddress p.address,
        fnSegment p.functionName ++ '?' :: joinChar '&' (Eip2.queryPieces p),
        by simp [List.append_assoc]⟩
    · rw [if_neg hq]
      exact ⟨ethScheme ++ Eip2.toChecksumAddress p.address,
        fnSegment p.functionName, by simp [List.append_assoc]⟩

/-- C6 witness: a concrete intent with chain id 7 — the `@` appears and
the output contains the `@7` segment. -/
theorem c6_chain_emission_amended_witness :
    (('@' ∈ Eip2.generateEIP681URL
        { address := "0xaaaaaaaaaaaaaaaaaaaaaaaaaaaaaaaaaaaaaaaa".toList,
          chainId := JSNum.num 7 }) ↔
      chainEmits (JSNum.num 7) = true) ∧
    List.IsInfix ('@' :: intToDec 7)
      (Eip2.generateEIP681URL
        { address := "0xaaaaaaaaaaaaaaaaaaaaaaaaaaaaaaaaaaaaaaaa".toList,
          chainId := JSNum.num 7 }) := by
  refine ⟨(c6_chain_emission_amended _ (by decide)).1, ?_⟩
  exact (c6_chain_emission_amended _ (by decide)).2 7 rfl (by decide) (by decide)

/-- C7 counterexample: for `"ethereum:a@b"` the chain segment is
non-numeric and the decoder returns `chainId = NaN` — the field is
present with the number `NaN` (observably distinct from undefined, e.g.
for the validator) — not the undefined/absent chain id the claim
states. -/
theorem c7_counterexample :
    (Eip.parseEIP681URL "ethereum:a@b".toList).map Eip.EipResult.chainId
        = some JSNum.nan ∧
    JSNum.nan ≠ JSNum.undef := by decide

theorem isDig_bounds {c : Char} (h : isDig c = true) :
    48 ≤ c.toNat ∧ c.toNat ≤ 57 := by
  unfold isDig at h
  simp only [Bool.and_eq_true, decide_eq_true_eq] at h
  exact ⟨h.1, h.2⟩

theorem isAsciiLetter_bounds {c : Char} (h : isAsciiLetter c = true) :
    (97 ≤ c.toNat ∧ c.toNat ≤ 122) ∨ (65 ≤ c.toNat ∧ c.toNat ≤ 90) := by
  unfold isAsciiLetter at h
  simp only [Bool.or_eq_true, Bool.and_eq_true, decide_eq_true_eq] at h
  rcases h with ⟨h1, h2⟩ | ⟨h1, h2⟩
  · exact Or.inl ⟨h1, h2⟩
  · exact Or.inr ⟨h1, h2⟩

theorem isDig_false_of_letter {c : Char} (h : isAsciiLetter c = true) :
    isDig c = false := by
  cases hd : isDig c with
  | false => rfl
  | true =>
    have hb := isDig_bounds hd
    rcases isAsciiLetter_bounds h with ⟨h1, h2⟩ | ⟨h1, h2⟩ <;> omega

theorem jsSpace_false_of_letter {c : Char} (h : isAsciiLetter c = true) :
    jsSpace c = false := by
  cases hs : jsSpace c with
  | false => rfl
  | true =>
    exfalso
    simp only [jsSpace, Bool.or_eq_true, decide_eq_true_eq] at hs
    rcases hs with ((((h1 | h1) | h1) | h1) | h1) | h1 <;>
      (try subst h1) <;> exact absurd h (by decide)

/-- C7 amended: decoding a URL with an `@` plus chain segment never
raises; the segment is handed to `parseInt` and the outcome — `NaN` for a
non-numeric segment (e.g. one starting with a letter), the base-10 value
of the leading digit run for a numeric one — is stored as the chain id.
A non-numeric segment therefore yields a present `NaN` chain id, not an
undefined/absent one.  The digit-run value is stated only up to `2^53`,
the range on which JavaScript numbers are exact integers: above it
`parseInt` rounds through an IEEE-754 double, which the embedding does
not model. -/
theorem c7_chain_parse_amended :
    (∀ head chain : Str, '@' ∉ head → '?' ∉ head → '@' ∉ chain → '?' ∉ chain →
      (Eip.parseEIP681URL (ethScheme ++ (head ++ '@' :: chain))).map
          Eip.EipResult.chainId = some (jsNumOfParse (jsParseInt chain))) ∧
    (∀ ds : Str, ds ≠ [] → (∀ c ∈ ds, isDig c = true) → decVal ds ≤ 2 ^ 53 →
      jsParseInt ds = some ((decVal ds : Nat) : Int)) ∧
    (∀ (c : Char) (s2 : Str), isAsciiLetter c = true →
      jsParseInt (c :: s2) = none) := by
  refine ⟨?_, ?_, ?_⟩
  · intro head chain ha1 hq1 ha2 hq2
    unfold Eip.parseEIP681URL
    rw [if_pos (by rw [strStarts_append_self]), drop_scheme_append]
    have hqm : '?' ∉ head ++ '@' :: chain := by
      intro hm
      rcases List.mem_append.1 hm with h1 | h1
      · exact hq1 h1
      · rcases List.mem_cons.1 h1 with h2 | h2
        · cases h2
        · exact hq2 h2
    have hat : (head ++ '@' :: chain).contains '@' = true :=
      (contains_true_iff _ _).2 (List.mem_append.2 (Or.inr (List.mem_cons_self _ _)))
    simp only [splitOnChar_of_not_mem hqm, List.headD_cons, List.getElem?_cons_succ,
      List.getElem?_nil, hat, if_true, splitOnChar_append chain ha1,
      splitOnChar_of_not_mem ha2, List.getD_cons_succ, List.getD_cons_zero]
    rfl
  · intro ds hne hdig _
    cases ds with
    | nil => exact absurd rfl hne
    | cons c t =>
      have hc := hdig c (List.mem_cons_self c t)
      rw [jsParseInt_cons (jsSpace_false_of_dig hc),
        if_neg (char_ne_of_class hc (by decide)),
        if_neg (char_ne_of_class hc (by decide))]
      unfold parseIntDigits
      rw [takeWhile_eq_self_of_all hdig]
      rfl
  · intro c s2 hl
    rw [jsParseInt_cons (jsSpace_false_of_letter hl),
      if_neg (char_ne_of_class hl (by decide)),
      if_neg (char_ne_of_class hl (by decide))]
    unfold parseIntDigits
    have ht : (c :: s2).takeWhile isDig = [] := by
      rw [List.takeWhile_cons, isDig_false_of_letter hl]
      rfl
    rw [ht]
    rfl

/-- C7 witness: chain segment `57x` parses to 57 (maximal digit prefix,
value within `2^53`); chain segment starting with a letter parses to
`NaN`. -/
theorem c7_chain_parse_amended_witness :
    (Eip.parseEIP681URL (ethScheme ++ ("abc".toList ++ '@' :: "57x".toList))).map
        Eip.EipResult.chainId = some (jsNumOfParse (jsParseInt "57x".toList)) ∧
    decVal "57".toList ≤ 2 ^ 53 ∧
    jsParseInt "57".toList = some ((decVal "57".toList : Nat) : Int) ∧
    jsParseInt "b5".toList = none := by
  refine ⟨c7_chain_parse_amended.1 "abc".toList "57x".toList
      (by decide) (by decide) (by decide) (by decide),
    by decide,
    c7_chain_parse_amended.2.1 "57".toList (by decide) (by decide) (by decide),
    c7_chain_parse_amended.2.2 'b' "5".toList (by decide)⟩

theorem foldl_setKey_eq_dedupKeepFirst (M : List (Str × Str)) :
    List.foldl (fun r kv => setKey r kv.1 kv.2) [] M = dedupKeepFirst M := by
  have h := foldl_setKey_dedup M [] rfl
  rw [List.map_nil, List.nil_append] at h
  rw [h]
  congr 1
  apply filter_eq_self_of_all
  intro kv _
  rfl

theorem opt_match_eta (o : Option Str) :
    (match o with | some w => some w | none => none) = o := by
  cases o <;> rfl

/-- C5 amended: for every URL that decodes, the last occurrence of each
recognized query key (`value`, `gas`, `gasLimit`, `gasPrice`) is
extracted into the dedicated field of the result, and the remaining
pairs are collected into the `parameters` object keyed in
first-encounter order with last-value-wins (`dedupKeepFirst`); the
object enumerates array-index-like keys first in ascending numeric
order (`jsEntries`), so encounter order is preserved only among the
remaining keys. -/
theorem c5_query_extraction_amended (url : Str) (r : Eip.EipResult)
    (h : Eip.parseEIP681URL url = some r) :
    r.value = lastVal "value".toList (Eip.qPairs url) ∧
    r.gas = lastVal "gas".toList (Eip.qPairs url) ∧
    r.gasLimit = lastVal "gasLimit".toList (Eip.qPairs url) ∧
    r.gasPrice = lastVal "gasPrice".toList (Eip.qPairs url) ∧
    r.parameters =
      (if dedupKeepFirst ((Eip.qPairs url).filter fun kv => !isRecognizedKey kv.1) = []
       then none
       else some (dedupKeepFirst
         ((Eip.qPairs url).filter fun kv => !isRecognizedKey kv.1))) := by
  cases hs : strStarts ethScheme url with
  | false =>
    rw [Eip.parse_none_of_no_scheme hs] at h
    cases h
  | true =>
    unfold Eip.parseEIP681URL at h
    rw [if_pos hs] at h
    have he := Option.some.inj h
    subst he
    have hL : Eip.qPairs url = entriesOfQS (splitOnChar '?' (url.drop 9))[1]? := rfl
    rw [hL]
    refine ⟨?_, ?_, ?_, ?_, ?_⟩
    · show (List.foldl Eip.qStep {} (entriesOfQS (splitOnChar '?' (url.drop 9))[1]?)).value = _
      rw [qStep_fold]
      exact opt_match_eta _
    · show (List.foldl Eip.qStep {} (entriesOfQS (splitOnChar '?' (url.drop 9))[1]?)).gas = _
      rw [qStep_fold]
      exact opt_match_eta _
    · show (List.foldl Eip.qStep {}
        (entriesOfQS (splitOnChar '?' (url.drop 9))[1]?)).gasLimit = _
      rw [qStep_fold]
      exact opt_match_eta _
    · show (List.foldl Eip.qStep {}
        (entriesOfQS (splitOnChar '?' (url.drop 9))[1]?)).gasPrice = _
      rw [qStep_fold]
      exact opt_match_eta _
    · show (if (List.foldl Eip.qStep {}
          (entriesOfQS (splitOnChar '?' (url.drop 9))[1]?)).params ≠ [] then _ else _) = _
      rw [qStep_fold]
      show (if List.foldl (fun r kv => setKey r kv.1 kv.2) []
          ((entriesOfQS (splitOnChar '?' (url.drop 9))[1]?).filter
            fun kv => !isRecognizedKey kv.1) ≠ [] then _ else _) = _
      rw [foldl_setKey_eq_dedupKeepFirst]
      by_cases hd : dedupKeepFirst
          ((entriesOfQS (splitOnChar '?' (url.drop 9))[1]?).filter
            fun kv => !isRecognizedKey kv.1) = []
      · rw [if_neg (by simpa using hd), if_pos hd]
      · rw [if_pos hd, if_neg hd]

/-- C5 witness: `ethereum:a?b=1&value=9&b=2&c=3` decodes with the last
`value` occurrence extracted and the duplicate unrecognized key `b`
collapsed to its first position carrying its last value. -/
theorem c5_query_extraction_amended_witness :
    Eip.parseEIP681URL ("ethereum:a?b=1&value=9&b=2&c=3".toList) = some
      { chainId := JSNum.undef, address := "a".toList, functionName := none,
        value := some ("9".toList), gas := none, gasLimit := none, gasPrice := none,
        parameters := some [("b".toList, "2".toList), ("c".toList, "3".toList)] } ∧
    ((some ("9".toList) : Option Str) =
        lastVal "value".toList (Eip.qPairs ("ethereum:a?b=1&value=9&b=2&c=3".toList)) ∧
      (none : Option Str) =
        lastVal "gas".toList (Eip.qPairs ("ethereum:a?b=1&value=9&b=2&c=3".toList)) ∧
      (none : Option Str) =
        lastVal "gasLimit".toList (Eip.qPairs ("ethereum:a?b=1&value=9&b=2&c=3".toList)) ∧
      (none : Option Str) =
        lastVal "gasPrice".toList (Eip.qPairs ("ethereum:a?b=1&value=9&b=2&c=3".toList)) ∧
      (some [("b".toList, "2".toList), ("c".toList, "3".toList)] : Option JSRecord) =
        (if dedupKeepFirst ((Eip.qPairs ("ethereum:a?b=1&value=9&b=2&c=3".toList)).filter
              fun kv => !isRecognizedKey kv.1) = []
         then none
         else some (dedupKeepFirst
           ((Eip.qPairs ("ethereum:a?b=1&value=9&b=2&c=3".toList)).filter
              fun kv => !isRecognizedKey kv.1)))) :=
  ⟨by decide,
    c5_query_extraction_amended _
      { chainId := JSNum.undef, address := "a".toList, functionName := none,
        value := some ("9".toList), gas := none, gasLimit := none, gasPrice := none,
        parameters := some [("b".toList, "2".toList), ("c".toList, "3".toList)] }
      (by decide)⟩

theorem not_mem_hexAddress {d : Char} {s : Str} (hs : isHexAddress40 s = true)
    (hd0 : ¬ d = '0') (hdx : ¬ d = 'x') (hdh : isHexDig d = false) : d ∉ s := by
  obtain ⟨rest, hsh, _, hdig⟩ := isHexAddress40_shape hs
  rw [hsh]
  intro hm
  rcases List.mem_cons.1 hm with h1 | h1
  · exact hd0 h1
  · rcases List.mem_cons.1 h1 with h2 | h2
    · exact hdx h2
    · rw [hdig d h2] at hdh
      cases hdh

theorem joinChar_ne_nil {sep : Char} {Q : List Str} (hQ : Q ≠ [])
    (hne : ∀ pc ∈ Q, pc ≠ []) : joinChar sep Q ≠ [] := by
  cases Q with
  | nil => exact absurd rfl hQ
  | cons pc t =>
    cases t with
    | nil => exact hne pc (List.mem_cons_self pc [])
    | cons q t2 =>
      rw [joinChar_cons_cons]
      intro he
      rcases List.append_eq_nil.1 he with ⟨h1, _⟩
      exact hne pc (List.mem_cons_self pc _) h1

theorem paramKeyOk_parts {k : Str} (h : paramKeyOk k = true) :
    (∃ c rest, k = c :: rest ∧ isAsciiLetter c = true) ∧ k.all isAlnum = true ∧
      isRecognizedKey k = false := by
  cases k with
  | nil => cases h
  | cons c rest =>
    simp only [paramKeyOk, Bool.and_eq_true, Bool.not_eq_true'] at h
    exact ⟨⟨c, rest, rfl, h.1.1⟩, h.1.2, h.2⟩

theorem isIndexKey_false_of_paramKeyOk {k : Str} (h : paramKeyOk k = true) :
    isIndexKey k = false := by
  obtain ⟨⟨c, rest, hk, hc⟩, _, _⟩ := paramKeyOk_parts h
  subst hk
  have hb := isAsciiLetter_bounds hc
  have hch : ¬ c = '0' := by
    intro he
    subst he
    rcases hb with ⟨h1, _⟩ | ⟨h1, _⟩ <;>
      rw [show ('0' : Char).toNat = 48 from rfl] at h1 <;> omega
  unfold isIndexKey
  show (if c = '0' then rest.isEmpty
    else decide ('1' ≤ c) && decide (c ≤ '9') && (c :: rest).all isDig &&
      decide (decVal (c :: rest) < 4294967295)) = false
  rw [if_neg hch]
  have h9 : (decide ('1' ≤ c) && decide (c ≤ '9')) = false := by
    cases hd : decide (c ≤ '9') with
    | false => rw [Bool.and_false]
    | true =>
      exfalso
      have h9n : c.toNat ≤ 57 := of_decide_eq_true hd
      rcases hb with ⟨h1, _⟩ | ⟨h1, _⟩ <;> omega
  rw [h9, Bool.false_and, Bool.false_and]

theorem mem_normBlock {k : Str} {o : Option Str} {kv : Str × Str}
    (h : kv ∈ (match o with
      | some v => [(k, v)]
      | none => ([] : List (Str × Str)))) : kv.1 = k := by
  cases o with
  | none => cases h
  | some v =>
    rw [List.mem_singleton] at h
    rw [h]

theorem lastVal_normBlock (k : Str) (o : Option Str) :
    lastVal k (match o with
      | some v => [(k, v)]
      | none => ([] : List (Str × Str))) = o := by
  cases o with
  | none => rfl
  | some v =>
    rw [lastVal_cons_self]
    rfl

theorem lastVal_append_left_none {k : Str} {a : List (Str × Str)}
    (b : List (Str × Str)) (h : ∀ kv ∈ a, ¬ kv.1 = k) :
    lastVal k (a ++ b) = lastVal k b := by
  rw [lastVal_append, lastVal_none_of_all_ne h]
  exact opt_match_eta _

theorem normValue_none_of_valuePiece_nil {o : Option Str}
    (h : valuePiece o = []) : normValue o = none := by
  cases o with
  | none => rfl
  | some v =>
    simp only [valuePiece] at h
    split at h
    · cases h
    · rename_i hc
      simp only [not_and_or, not_not] at hc
      simp only [normValue]
      rw [if_pos hc]

theorem normOptStr_none_of_gasPiece_nil {key : Str} {o : Option Str}
    (h : gasPiece key o = []) : normOptStr o = none := by
  cases o with
  | none => rfl
  | some g =>
    simp only [gasPiece] at h
    split at h
    · cases h
    · rename_i hc
      rw [not_not] at hc
      simp only [normOptStr]
      rw [if_pos hc]

theorem map_qsPair_valuePiece {o : Option Str} (h : digitStrOpt o = true) :
    (valuePiece o).map qsPair =
      (match normValue o with
       | some v => [("value".toList, v)]
       | none => ([] : List (Str × Str))) := by
  cases o with
  | none => rfl
  | some v =>
    have hdig : ∀ c ∈ v, isDig c = true := by
      simp only [digitStrOpt, List.all_eq_true] at h
      exact h
    have hdec : qsDecode v = v :=
      qsDecode_eq_self (not_mem_of_all_ne hdig (by decide))
        (not_mem_of_all_ne hdig (by decide))
    simp only [valuePiece, normValue]
    by_cases hc : v ≠ [] ∧ v ≠ "0".toList
    · rw [if_pos hc, if_neg (fun hd => hd.elim hc.1 hc.2), List.map_singleton,
        show "value=".toList ++ v = "value".toList ++ '=' :: v from rfl,
        qsPair_kv v (by decide), hdec,
        show qsDecode "value".toList = "value".toList from rfl]
    · rw [if_neg hc, if_pos (by tauto)]
      rfl

theorem map_qsPair_gasPiece (k : Str) {o : Option Str} (hk : '=' ∉ k)
    (hkd : qsDecode k = k) (h : digitStrOpt o = true) :
    (gasPiece (k ++ ['=']) o).map qsPair =
      (match normOptStr o with
       | some v => [(k, v)]
       | none => ([] : List (Str × Str))) := by
  cases o with
  | none => rfl
  | some g =>
    have hdig : ∀ c ∈ g, isDig c = true := by
      simp only [digitStrOpt, List.all_eq_true] at h
      exact h
    have hdec : qsDecode g = g :=
      qsDecode_eq_self (not_mem_of_all_ne hdig (by decide))
        (not_mem_of_all_ne hdig (by decide))
    simp only [gasPiece, normOptStr]
    by_cases hg : g ≠ []
    · rw [if_pos hg, if_neg hg, List.map_singleton,
        show (k ++ ['=']) ++ g = k ++ '=' :: g by simp,
        qsPair_kv g hk, hkd, hdec]
    · rw [if_neg hg, if_pos (not_not.1 hg)]
      rfl

theorem map_qsPair_paramPieces {r : JSRecord}
    (hk : ∀ kv ∈ r, paramKeyOk kv.1 = true)
    (hv : ∀ kv ∈ r, asciiStr kv.2 = true) :
    ((jsEntries r).map Eip.paramPiece).map qsPair = r := by
  rw [jsEntries_eq_self (fun kv hm => isIndexKey_false_of_paramKeyOk (hk kv hm)),
    List.map_map]
  have hone : ∀ kv ∈ r, (qsPair ∘ Eip.paramPiece) kv = kv := by
    intro kv hm
    obtain ⟨k, val⟩ := kv
    obtain ⟨_, halnum, _⟩ := paramKeyOk_parts (hk (k, val) hm)
    have halnum2 : ∀ c ∈ k, isAlnum c = true := List.all_eq_true.1 halnum
    have hascii : ∀ c ∈ val, c.toNat < 128 := by
      have := hv (k, val) hm
      simp only [asciiStr, List.all_eq_true, decide_eq_true_eq] at this
      exact this
    show qsPair (Eip.paramPiece (k, val)) = (k, val)
    unfold Eip.paramPiece
    rw [qsPair_kv _ (not_mem_of_all_ne halnum2 (by decide)),
      qsDecode_eq_self (not_mem_of_all_ne halnum2 (by decide))
        (not_mem_of_all_ne halnum2 (by decide)),
      qsDecode_encode hascii]
  calc r.map (qsPair ∘ Eip.paramPiece) = r.map id := List.map_congr_left hone
    _ = r := List.map_id r

theorem fnSegment_chars {o : Option Str} (hF : fnValid o = true) {d : Char}
    (hd : isAlnum d = false) (hds : ¬ d = '/') : d ∉ fnSegment o := by
  cases o with
  | none => simp [fnSegment]
  | some f =>
    simp only [fnValid] at hF
    simp only [fnSegment]
    split
    · intro hm
      rcases List.mem_cons.1 hm with h1 | h1
      · exact hds h1
      · have := List.all_eq_true.1 hF d h1
        rw [hd] at this
        cases this
    · exact List.not_mem_nil d

theorem fnSegment_take_not_dig (o : Option Str) :
    ∀ c ∈ (fnSegment o).take 1, isDig c = false := by
  cases o with
  | none =>
    intro c hc
    cases hc
  | some f =>
    simp only [fnSegment]
    split
    · intro c hc
      rw [List.take_succ_cons, List.take_zero, List.mem_singleton] at hc
      rw [hc]
      decide
    · intro c hc
      cases hc

theorem normBlock_key_ne (k k2 : Str) (hne : ¬ k = k2) (o : Option Str) :
    ∀ kv : Str × Str, kv ∈ (match o with
      | some v => [(k, v)]
      | none => ([] : List (Str × Str))) → ¬ kv.1 = k2 := by
  intro kv hm he
  rw [mem_normBlock hm] at he
  exact hne he

theorem forall_key_ne_append {k : Str} {a b : List (Str × Str)}
    (ha : ∀ kv ∈ a, ¬ kv.1 = k) (hb : ∀ kv ∈ b, ¬ kv.1 = k) :
    ∀ kv ∈ a ++ b, ¬ kv.1 = k := by
  intro kv hm
  rcases List.mem_append.1 hm with h1 | h1
  · exact ha kv h1
  · exact hb kv h1

theorem normBlock_not_unrec (k : Str) (hk : isRecognizedKey k = true)
    (o : Option Str) :
    ∀ x : Str × Str, x ∈ (match o with
      | some v => [(k, v)]
      | none => ([] : List (Str × Str))) → (!isRecognizedKey x.1) = false := by
  intro x hx
  rw [mem_normBlock hx, hk]
  rfl

theorem forall_false_append {p : Str × Str → Bool} {a b : List (Str × Str)}
    (ha : ∀ x ∈ a, p x = false) (hb : ∀ x ∈ b, p x = false) :
    ∀ x ∈ a ++ b, p x = false := by
  intro x hm
  rcases List.mem_append.1 hm with h1 | h1
  · exact ha x h1
  · exact hb x h1

theorem qfold_blocks (oV oG oGl oGp : Option Str) (P : JSRecord)
    (hPkeys : ∀ kv ∈ P, isRecognizedKey kv.1 = false) (hPnd : nodupKeys P = true) :
    (((((match oV with
         | some v => [("value".toList, v)]
         | none => ([] : List (Str × Str))) ++
        (match oG with
         | some v => [("gas".toList, v)]
         | none => ([] : List (Str × Str)))) ++
       (match oGl with
        | some v => [("gasLimit".toList, v)]
        | none => ([] : List (Str × Str)))) ++
      (match oGp with
       | some v => [("gasPrice".toList, v)]
       | none => ([] : List (Str × Str)))) ++ P).foldl Eip.qStep {} =
      { value := oV, gas := oG, gasLimit := oGl, gasPrice := oGp, params := P } := by
  have hP1 : ∀ (q : Str), isRecognizedKey q = true → ∀ kv ∈ P, ¬ kv.1 = q := by
    intro q hq kv hm he
    have hx := hPkeys kv hm
    rw [he, hq] at hx
    cases hx
  have hBv := fun k2 hne => normBlock_key_ne "value".toList k2 hne oV
  have hBg := fun k2 hne => normBlock_key_ne "gas".toList k2 hne oG
  have hBgl := fun k2 hne => normBlock_key_ne "gasLimit".toList k2 hne oGl
  have hBgp := fun k2 hne => normBlock_key_ne "gasPrice".toList k2 hne oGp
  rw [qStep_fold, Eip.QState.mk.injEq]
  refine ⟨?_, ?_, ?_, ?_, ?_⟩
  · rw [lastVal_append_right_none _ (hP1 "value".toList (by decide)),
      lastVal_append_right_none _ (hBgp "value".toList (by decide)),
      lastVal_append_right_none _ (hBgl "value".toList (by decide)),
      lastVal_append_right_none _ (hBg "value".toList (by decide)),
      lastVal_normBlock]
    exact opt_match_eta oV
  · rw [lastVal_append_right_none _ (hP1 "gas".toList (by decide)),
      lastVal_append_right_none _ (hBgp "gas".toList (by decide)),
      lastVal_append_right_none _ (hBgl "gas".toList (by decide)),
      lastVal_append_left_none _ (hBv "gas".toList (by decide)),
      lastVal_normBlock]
    exact opt_match_eta oG
  · rw [lastVal_append_right_none _ (hP1 "gasLimit".toList (by decide)),
      lastVal_append_right_none _ (hBgp "gasLimit".toList (by decide)),
      lastVal_append_left_none _
        (forall_key_ne_append (hBv "gasLimit".toList (by decide))
          (hBg "gasLimit".toList (by decide))),
      lastVal_normBlock]
    exact opt_match_eta oGl
  · rw [lastVal_append_right_none _ (hP1 "gasPrice".toList (by decide)),
      lastVal_append_left_none _
        (forall_key_ne_append
          (forall_key_ne_append (hBv "gasPrice".toList (by decide))
            (hBg "gasPrice".toList (by decide)))
          (hBgl "gasPrice".toList (by decide))),
      lastVal_normBlock]
    exact opt_match_eta oGp
  · rw [List.filter_append,
      filter_eq_nil_of_all
        (forall_false_append
          (forall_false_append
            (forall_false_append
              (normBlock_not_unrec "value".toList (by decide) oV)
              (normBlock_not_unrec "gas".toList (by decide) oG))
            (normBlock_not_unrec "gasLimit".toList (by decide) oGl))
          (normBlock_not_unrec "gasPrice".toList (by decide) oGp)),
      filter_eq_self_of_all (fun x hx => by rw [hPkeys x hx]; rfl),
      List.nil_append]
    show List.foldl (fun r kv => setKey r kv.1 kv.2) [] P = P
    exact foldl_setKey_nodup P hPnd

theorem Eip.parse_with_query (H J : Str) (hH : '?' ∉ H) (hJq : '?' ∉ J)
    (hJn : J ≠ []) :
    Eip.parseEIP681URL (ethScheme ++ (H ++ '?' :: J)) =
      (Eip.parseEIP681URL (ethScheme ++ H)).map fun r0 =>
        let st := (uspEntries J).foldl Eip.qStep {}
        { r0 with value := st.value, gas := st.gas, gasLimit := st.gasLimit,
                  gasPrice := st.gasPrice,
                  parameters := if st.params ≠ [] then some st.params else none } := by
  unfold Eip.parseEIP681URL
  rw [if_pos (strStarts_append_self _ _), if_pos (strStarts_append_self _ _),
    drop_scheme_append, drop_scheme_append]
  simp only [splitOnChar_append J hH, splitOnChar_of_not_mem hJq,
    splitOnChar_of_not_mem hH, List.headD_cons, List.getElem?_cons_succ,
    List.getElem?_cons_zero, List.getElem?_nil]
  rw [show entriesOfQS (some J) = uspEntries J from by
    show (if J ≠ [] then uspEntries J else []) = uspEntries J
    rw [if_pos hJn]]
  rfl

theorem Eip.parse_genHead (p : EIP681Params) (hA : isHexAddress40 p.address = true)
    (hC : chainValid p.chainId = true) (hF : fnValid p.functionName = true) :
    Eip.parseEIP681URL (ethScheme ++
        (p.address ++ chainSegment p.chainId ++ fnSegment p.functionName)) =
      some { chainId := if chainEmits p.chainId then p.chainId else JSNum.undef,
             address := p.address,
             functionName := if chainEmits p.chainId then none
               else normOptStr p.functionName,
             value := none, gas := none, gasLimit := none, gasPrice := none,
             parameters := none } := by
  have hAat : '@' ∉ p.address :=
    not_mem_hexAddress hA (by decide) (by decide) (by decide)
  have hAsl : '/' ∉ p.address :=
    not_mem_hexAddress hA (by decide) (by decide) (by decide)
  have hAq : '?' ∉ p.address :=
    not_mem_hexAddress hA (by decide) (by decide) (by decide)
  have hFat : '@' ∉ fnSegment p.functionName :=
    fnSegment_chars hF (by decide) (by decide)
  have hFq : '?' ∉ fnSegment p.functionName :=
    fnSegment_chars hF (by decide) (by decide)
  cases hce : chainEmits p.chainId with
  | true =>
    cases hch : p.chainId with
    | undef => rw [hch] at hce; exact absurd hce (by decide)
    | nan => rw [hch] at hce; exact absurd hce (by decide)
    | num n =>
      rw [hch] at hce hC
      simp only [chainEmits, Bool.and_eq_true, decide_eq_true_eq] at hce
      obtain ⟨hn0, hn1⟩ := hce
      simp only [chainValid, Bool.and_eq_true, decide_eq_true_eq] at hC
      have hCS : chainSegment (JSNum.num n) = '@' :: intToDec n := by
        simp only [chainSegment]
        rw [if_pos ⟨hn0, hn1⟩]
      have hD : ∀ c ∈ intToDec n, isDig c = true := by
        unfold intToDec
        rw [if_neg (by omega)]
        exact toDecimal_all_dig _
      rw [hCS]
      unfold Eip.parseEIP681URL
      rw [if_pos (strStarts_append_self _ _), drop_scheme_append,
        show p.address ++ ('@' :: intToDec n) ++ fnSegment p.functionName =
            p.address ++ '@' :: (intToDec n ++ fnSegment p.functionName) from by
          simp [List.append_assoc]]
      have hTq : '?' ∉ p.address ++ '@' ::
          (intToDec n ++ fnSegment p.functionName) := by
        intro hm
        rcases List.mem_append.1 hm with h1 | h1
        · exact hAq h1
        · rcases List.mem_cons.1 h1 with h2 | h2
          · cases h2
          · rcases List.mem_append.1 h2 with h3 | h3
            · exact absurd (hD _ h3) (by decide)
            · exact hFq h3
      have hTat : (p.address ++ '@' ::
          (intToDec n ++ fnSegment p.functionName)).contains '@' = true :=
        (contains_true_iff _ _).2 (List.mem_append.2 (Or.inr (List.mem_cons_self _ _)))
      have hDF : '@' ∉ intToDec n ++ fnSegment p.functionName := by
        intro hm
        rcases List.mem_append.1 hm with h1 | h1
        · exact absurd (hD _ h1) (by decide)
        · exact hFat h1
      simp only [splitOnChar_of_not_mem hTq, List.headD_cons, List.getElem?_cons_succ,
        List.getElem?_nil, hTat, if_true, splitOnChar_append _ hAat,
        splitOnChar_of_not_mem hDF, List.getD_cons_succ, List.getD_cons_zero,
        contains_false_of_not_mem hAsl, Bool.false_eq_true, if_false]
      rw [jsParseInt_intToDec n _ (fnSegment_take_not_dig _)]
      rfl
  | false =>
    have hCS : chainSegment p.chainId = [] := by
      cases hch : p.chainId with
      | undef => rfl
      | nan => rfl
      | num n =>
        rw [hch] at hce
        simp only [chainSegment]
        rw [if_neg]
        intro hcond
        have hx : chainEmits (JSNum.num n) = true := by
          simp [chainEmits, hcond.1, hcond.2]
        rw [hx] at hce
        cases hce
    rw [hCS, List.append_nil]
    cases hfn : p.functionName with
    | none =>
      rw [show fnSegment none = ([] : Str) from rfl, List.append_nil,
        Eip.parse_plain p.address hAat hAsl hAq]
      rfl
    | some f =>
      by_cases hfe : f = []
      · subst hfe
        rw [show fnSegment (some []) = ([] : Str) from rfl, List.append_nil,
          Eip.parse_plain p.address hAat hAsl hAq]
        rfl
      · have hFall : ∀ c ∈ f, isAlnum c = true := by
          rw [hfn] at hF
          simp only [fnValid, List.all_eq_true] at hF
          exact hF
        have hfsl : '/' ∉ f := not_mem_of_all_ne hFall (by decide)
        have hfq2 : '?' ∉ f := not_mem_of_all_ne hFall (by decide)
        have hfat : '@' ∉ f := not_mem_of_all_ne hFall (by decide)
        rw [show fnSegment (some f) = '/' :: f from by
          simp only [fnSegment]
          rw [if_pos hfe]]
        unfold Eip.parseEIP681URL
        rw [if_pos (strStarts_append_self _ _), drop_scheme_append]
        have hTq : '?' ∉ p.address ++ '/' :: f := by
          intro hm
          rcases List.mem_append.1 hm with h1 | h1
          · exact hAq h1
          · rcases List.mem_cons.1 h1 with h2 | h2
            · cases h2
            · exact hfq2 h2
        have hTat : (p.address ++ '/' :: f).contains '@' = false := by
          apply contains_false_of_not_mem
          intro hm
          rcases List.mem_append.1 hm with h1 | h1
          · exact hAat h1
          · rcases List.mem_cons.1 h1 with h2 | h2
            · cases h2
            · exact hfat h2
        have hTsl : (p.address ++ '/' :: f).contains '/' = true :=
          (contains_true_iff _ _).2
            (List.mem_append.2 (Or.inr (List.mem_cons_self _ _)))
        simp only [splitOnChar_of_not_mem hTq, List.headD_cons,
          List.getElem?_cons_succ, List.getElem?_nil, hTat, Bool.false_eq_true,
          if_false, hTsl, if_true, splitOnChar_append f hAsl,
          splitOnChar_of_not_mem hfsl, List.getD_cons_succ, List.getD_cons_zero]
        rw [show normOptStr (some f) = some f from by
          simp only [normOptStr]
          rw [if_neg hfe]]
        rfl

theorem chainSegment_chars {c : JSNum} {d : Char} (hd1 : ¬ d = '@')
    (hd2 : ¬ d = '-') (hd3 : isDig d = false) : d ∉ chainSegment c := by
  cases c with
  | undef => exact List.not_mem_nil d
  | nan => exact List.not_mem_nil d
  | num n =>
    simp only [chainSegment]
    split
    · intro hm
      rcases List.mem_cons.1 hm with h1 | h1
      · exact hd1 h1
      · unfold intToDec at h1
        split at h1
        · rcases List.mem_cons.1 h1 with h2 | h2
          · exact hd2 h2
          · rw [toDecimal_all_dig _ d h2] at hd3
            cases hd3
        · rw [toDecimal_all_dig _ d h1] at hd3
          cases hd3
    · exact List.not_mem_nil d

theorem piece_char_free {pre v : Str} {d : Char} (hpre : d ∉ pre)
    (hv : ∀ c ∈ v, isDig c = true) (hd : isDig d = false) : d ∉ pre ++ v := by
  intro hm
  rcases List.mem_append.1 hm with h1 | h1
  · exact hpre h1
  · rw [hv d h1] at hd
    cases hd

theorem paramPiece_char_free {kv : Str × Str} (hk : paramKeyOk kv.1 = true)
    {d : Char} (hd1 : isAlnum d = false) (hd2 : ¬ d = '=')
    (hd3 : isUriUnreserved d = false) (hd4 : d ≠ '%')
    (hd5 : d ∉ "0123456789ABCDEF".toList) : d ∉ Eip.paramPiece kv := by
  obtain ⟨_, halnum, _⟩ := paramKeyOk_parts hk
  intro hm
  unfold Eip.paramPiece at hm
  rcases List.mem_append.1 hm with h1 | h1
  · exact not_mem_of_all_ne (List.all_eq_true.1 halnum) hd1 h1
  · rcases List.mem_cons.1 h1 with h2 | h2
    · exact hd2 h2
    · exact not_mem_encodeURIComponent _ hd3 hd4 hd5 h2

/-- C1 amended: for every syntactically valid intent (valid hex address,
chain id absent or a positive representable integer, identifier-like
function name, decimal quantity strings, well-formed custom parameters),
decoding the encoded URL succeeds and returns exactly the intent with the
encoder-omitted pieces normalized away — empty optional strings, the
value `"0"`, the chain ids `0` and `1`, empty parameter objects — and,
the divergence the original round-trip claim misses, with the function
name lost whenever a chain segment is emitted, because this parser looks
for `/` only in the part before the `@`. -/
theorem c1_round_trip_amended (p : EIP681Params) (h : WellFormed p = true) :
    Eip.parseEIP681URL (Eip.generateEIP681URL p) = some (expectedRoundTrip p) := by
  simp only [WellFormed, Bool.and_eq_true] at h
  obtain ⟨⟨⟨⟨⟨⟨⟨hA, hC⟩, hF⟩, hV⟩, hG⟩, hGL⟩, hGP⟩, hP⟩ := h
  have hhead := Eip.parse_genHead p hA hC hF
  by_cases hq : Eip.queryPieces p = []
  case pos =>
    have hgen : Eip.generateEIP681URL p = ethScheme ++
        (p.address ++ chainSegment p.chainId ++ fnSegment p.functionName) := by
      simp only [Eip.generateEIP681URL]
      rw [if_neg (fun hne => hne hq)]
      simp [List.append_assoc]
    rw [hgen, hhead]
    unfold Eip.queryPieces at hq
    rcases List.append_eq_nil.1 hq with ⟨hfp, hpp⟩
    unfold fieldPieces at hfp
    rcases List.append_eq_nil.1 hfp with ⟨hfp1, hgp3⟩
    rcases List.append_eq_nil.1 hfp1 with ⟨hfp2, hgp2⟩
    rcases List.append_eq_nil.1 hfp2 with ⟨hvp, hgp1⟩
    have hparnone : p.parameters = none := by
      cases hpar : p.parameters with
      | none => rfl
      | some r =>
        rw [hpar] at hP hpp
        simp only [paramsValid, Bool.and_eq_true, decide_eq_true_eq] at hP
        unfold optParamPieces at hpp
        rw [List.map_eq_nil_iff] at hpp
        have hperm := jsEntries_perm r
        rw [hpp] at hperm
        exact absurd hperm.symm.eq_nil hP.1.1
    unfold expectedRoundTrip
    rw [hparnone, normValue_none_of_valuePiece_nil hvp,
      normOptStr_none_of_gasPiece_nil hgp1, normOptStr_none_of_gasPiece_nil hgp2,
      normOptStr_none_of_gasPiece_nil hgp3]
  case neg =>
    have hPieces : ∀ pc ∈ Eip.queryPieces p, pc ≠ [] ∧ '&' ∉ pc ∧ '?' ∉ pc := by
      intro pc hpc
      unfold Eip.queryPieces at hpc
      rcases List.mem_append.1 hpc with h1 | h1
      · rcases mem_fieldPieces h1 with
          ⟨v, hv2, he⟩ | ⟨v, hv2, he⟩ | ⟨v, hv2, he⟩ | ⟨v, hv2, he⟩
        · subst he
          have hdg : ∀ c ∈ v, isDig c = true := by
            rw [hv2] at hV
            simp only [digitStrOpt, List.all_eq_true] at hV
            exact hV
          exact ⟨by simp, piece_char_free (by decide) hdg (by decide),
            piece_char_free (by decide) hdg (by decide)⟩
        · subst he
          have hdg : ∀ c ∈ v, isDig c = true := by
            rw [hv2] at hG
            simp only [digitStrOpt, List.all_eq_true] at hG
            exact hG
          exact ⟨by simp, piece_char_free (by decide) hdg (by decide),
            piece_char_free (by decide) hdg (by decide)⟩
        · subst he
          have hdg : ∀ c ∈ v, isDig c = true := by
            rw [hv2] at hGL
            simp only [digitStrOpt, List.all_eq_true] at hGL
            exact hGL
          exact ⟨by simp, piece_char_free (by decide) hdg (by decide),
            piece_char_free (by decide) hdg (by decide)⟩
        · subst he
          have hdg : ∀ c ∈ v, isDig c = true := by
            rw [hv2] at hGP
            simp only [digitStrOpt, List.all_eq_true] at hGP
            exact hGP
          exact ⟨by simp, piece_char_free (by decide) hdg (by decide),
            piece_char_free (by decide) hdg (by decide)⟩
      · cases hpar : p.parameters with
        | none =>
          rw [hpar] at h1
          cases h1
        | some r =>
          rw [hpar] at h1 hP
          unfold optParamPieces at h1
          rw [List.mem_map] at h1
          obtain ⟨kv, hkv, he⟩ := h1
          subst he
          have hkvr : kv ∈ r := (jsEntries_perm r).subset hkv
          simp only [paramsValid, Bool.and_eq_true, List.all_eq_true,
            decide_eq_true_eq] at hP
          have hkOk := (hP.2 kv hkvr).1
          refine ⟨?_,
            paramPiece_char_free hkOk (by decide) (by decide) (by decide)
              (by decide) (by decide),
            paramPiece_char_free hkOk (by decide) (by decide) (by decide)
              (by decide) (by decide)⟩
          unfold Eip.paramPiece
          simp
    have hQne : ∀ pc ∈ Eip.queryPieces p, pc ≠ [] :=
      fun pc hpc => (hPieces pc hpc).1
    have hQamp : ∀ pc ∈ Eip.queryPieces p, '&' ∉ pc :=
      fun pc hpc => (hPieces pc hpc).2.1
    have hQq : ∀ pc ∈ Eip.queryPieces p, '?' ∉ pc :=
      fun pc hpc => (hPieces pc hpc).2.2
    have hJn : joinChar '&' (Eip.queryPieces p) ≠ [] := joinChar_ne_nil hq hQne
    have hJq : '?' ∉ joinChar '&' (Eip.queryPieces p) := by
      intro hm
      rcases mem_joinChar hm with h1 | ⟨pc, hpc, hin⟩
      · cases h1
      · exact hQq pc hpc hin
    have hHq : '?' ∉ p.address ++ chainSegment p.chainId ++
        fnSegment p.functionName := by
      intro hm
      rcases List.mem_append.1 hm with h1 | h1
      · rcases List.mem_append.1 h1 with h2 | h2
        · exact not_mem_hexAddress hA (by decide) (by decide) (by decide) h2
        · exact chainSegment_chars (by decide) (by decide) (by decide) h2
      · exact fnSegment_chars hF (by decide) (by decide) h1
    have hparmap : (optParamPieces Eip.paramPiece p.parameters).map qsPair =
        (match p.parameters with
         | some r2 => r2
         | none => ([] : JSRecord)) := by
      cases hpar : p.parameters with
      | none => rfl
      | some r2 =>
        rw [hpar] at hP
        simp only [paramsValid, Bool.and_eq_true, List.all_eq_true,
          decide_eq_true_eq] at hP
        unfold optParamPieces
        exact map_qsPair_paramPieces (fun kv hm => (hP.2 kv hm).1)
          (fun kv hm => (hP.2 kv hm).2)
    have hmap : (Eip.queryPieces p).map qsPair =
        (((((match normValue p.value with
             | some v => [("value".toList, v)]
             | none => ([] : List (Str × Str))) ++
            (match normOptStr p.gas with
             | some v => [("gas".toList, v)]
             | none => ([] : List (Str × Str)))) ++
           (match normOptStr p.gasLimit with
            | some v => [("gasLimit".toList, v)]
            | none => ([] : List (Str × Str)))) ++
          (match normOptStr p.gasPrice with
           | some v => [("gasPrice".toList, v)]
           | none => ([] : List (Str × Str)))) ++
         (match p.parameters with
          | some r2 => r2
          | none => ([] : JSRecord))) := by
      unfold Eip.queryPieces fieldPieces
      rw [List.map_append, List.map_append, List.map_append, List.map_append,
        map_qsPair_valuePiece hV,
        show ("gas=".toList : Str) = "gas".toList ++ ['='] from rfl,
        show ("gasLimit=".toList : Str) = "gasLimit".toList ++ ['='] from rfl,
        show ("gasPrice=".toList : Str) = "gasPrice".toList ++ ['='] from rfl,
        map_qsPair_gasPiece "gas".toList (by decide) rfl hG,
        map_qsPair_gasPiece "gasLimit".toList (by decide) rfl hGL,
        map_qsPair_gasPiece "gasPrice".toList (by decide) rfl hGP,
        hparmap]
    have hgen : Eip.generateEIP681URL p = ethScheme ++
        ((p.address ++ chainSegment p.chainId ++ fnSegment p.functionName) ++
          '?' :: joinChar '&' (Eip.queryPieces p)) := by
      simp only [Eip.generateEIP681URL]
      rw [if_pos hq]
      simp [List.append_assoc]
    rw [hgen, Eip.parse_with_query _ _ hHq hJq hJn, hhead]
    simp only [Option.map]
    rw [uspEntries_joinChar hq hQne hQamp, hmap]
    cases hpar : p.parameters with
    | none =>
      rw [show (match (none : Option JSRecord) with
              | some r2 => r2
              | none => ([] : JSRecord)) = ([] : JSRecord) from rfl,
        qfold_blocks (normValue p.value) (normOptStr p.gas)
          (normOptStr p.gasLimit) (normOptStr p.gasPrice) []
          (fun kv hm => absurd hm (List.not_mem_nil kv)) rfl]
      unfold expectedRoundTrip
      rw [hpar]
      rfl
    | some r =>
      rw [hpar] at hP
      simp only [paramsValid, Bool.and_eq_true, List.all_eq_true,
        decide_eq_true_eq] at hP
      rw [show (match (some r : Option JSRecord) with
              | some r2 => r2
              | none => ([] : JSRecord)) = r from rfl,
        qfold_blocks (normValue p.value) (normOptStr p.gas)
          (normOptStr p.gasLimit) (normOptStr p.gasPrice) r
          (fun kv hm => (paramKeyOk_parts (hP.2 kv hm).1).2.2) hP.1.2]
      unfold expectedRoundTrip
      rw [hpar]
      simp [hP.1.1]

/-- C1 witness: a concrete valid intent with chain id 5, function name
`transfer`, value, gas limit and two custom parameters round-trips to its
normalized form (chain id kept, function name lost to the chain-segment
split). -/
theorem c1_round_trip_amended_witness :
    WellFormed
      { chainId := JSNum.num 5,
        address := "0xaaaaaaaaaaaaaaaaaaaaaaaaaaaaaaaaaaaaaaaa".toList,
        functionName := some "transfer".toList,
        value := some "10".toList,
        gasLimit := some "21".toList,
        parameters := some [("tok".toList, "0xff".toList),
          ("u256".toList, "9".toList)] } = true ∧
    Eip.parseEIP681URL (Eip.generateEIP681URL
      { chainId := JSNum.num 5,
        address := "0xaaaaaaaaaaaaaaaaaaaaaaaaaaaaaaaaaaaaaaaa".toList,
        functionName := some "transfer".toList,
        value := some "10".toList,
        gasLimit := some "21".toList,
        parameters := some [("tok".toList, "0xff".toList),
          ("u256".toList, "9".toList)] }) =
      some (expectedRoundTrip
        { chainId := JSNum.num 5,
          address := "0xaaaaaaaaaaaaaaaaaaaaaaaaaaaaaaaaaaaaaaaa".toList,
          functionName := some "transfer".toList,
          value := some "10".toList,
          gasLimit := some "21".toList,
          parameters := some [("tok".toList, "0xff".toList),
            ("u256".toList, "9".toList)] }) :=
  ⟨by decide, c1_round_trip_amended _ (by decide)⟩

theorem fnOk2_parts {f : Str} (h : fnOk2 (some f) = true) :
    f ≠ [] ∧ '@' ∉ f ∧ '/' ∉ f ∧ '?' ∉ f := by
  simp only [fnOk2, Bool.and_eq_true, Bool.not_eq_true', decide_eq_true_eq] at h
  exact ⟨h.1.1.1, not_mem_of_contains_false h.1.1.2,
    not_mem_of_contains_false h.1.2, not_mem_of_contains_false h.2⟩

theorem chainOk2_parts {n : Int} (h : chainOk2 (JSNum.num n) = true) :
    n ≠ 0 ∧ n ≠ 1 := by
  simp only [chainOk2, Bool.and_eq_true, decide_eq_true_eq] at h
  exact ⟨h.1.1, h.1.2⟩

theorem keyReEncodable_parts {k : Str} (h : keyReEncodable k = true) :
    asciiStr k = true ∧ k.contains '%' = false ∧ k.contains '+' = false ∧
      k.contains '&' = false ∧ k.contains '=' = false ∧
      k.contains '?' = false := by
  simp only [keyReEncodable, Bool.and_eq_true, Bool.not_eq_true'] at h
  exact ⟨h.1.1.1.1.1, h.1.1.1.1.2, h.1.1.1.2, h.1.1.2, h.1.2, h.2⟩

theorem fnSegment_chars2 {o : Option Str} {d : Char}
    (hf : ∀ f, o = some f → d ∉ f) (hds : ¬ d = '/') : d ∉ fnSegment o := by
  cases o with
  | none => exact List.not_mem_nil d
  | some f =>
    simp only [fnSegment]
    split
    · intro hm
      rcases List.mem_cons.1 hm with h1 | h1
      · exact hds h1
      · exact hf f rfl h1
    · exact List.not_mem_nil d

theorem mem_intToDec {d : Char} {n : Int} (h : d ∈ intToDec n) :
    d = '-' ∨ isDig d = true := by
  unfold intToDec at h
  split at h
  · rcases List.mem_cons.1 h with h1 | h1
    · exact Or.inl h1
    · exact Or.inr (toDecimal_all_dig _ d h1)
  · exact Or.inr (toDecimal_all_dig _ d h)

theorem intToDec_char_free {d : Char} (hd1 : ¬ d = '-') (hd2 : isDig d = false)
    (n : Int) : d ∉ intToDec n := by
  intro hm
  rcases mem_intToDec hm with h1 | h1
  · exact hd1 h1
  · rw [h1] at hd2
    cases hd2

theorem jsParseInt_intToDec_plain (n : Int) : jsParseInt (intToDec n) = some n := by
  have h2 := jsParseInt_intToDec n [] (fun c hc => absurd hc (List.not_mem_nil c))
  rwa [List.append_nil] at h2

theorem paramPiece2_char_free {kv : Str × Str} {d : Char}
    (hk : kv.1.contains d = false) (hd2 : ¬ d = '=')
    (hd3 : isUriUnreserved d = false) (hd4 : d ≠ '%')
    (hd5 : d ∉ "0123456789ABCDEF".toList) : d ∉ Eip2.paramPiece kv := by
  intro hm
  unfold Eip2.paramPiece at hm
  rcases List.mem_append.1 hm with h1 | h1
  · exact not_mem_of_contains_false hk h1
  · rcases List.mem_cons.1 h1 with h2 | h2
    · exact hd2 h2
    · exact not_mem_encodeURIComponent _ hd3 hd4 hd5 h2

theorem foldl_setKey_addrfix {l : List (Str × Str)}
    (hT : ∀ kv ∈ l,
      (if kv.1 = "address".toList then Eip2.toChecksumAddress kv.2 else kv.2) =
        kv.2) :
    ∀ a : JSRecord,
      l.foldl (fun r kv => setKey r kv.1
        (if kv.1 = "address".toList then Eip2.toChecksumAddress kv.2
         else kv.2)) a =
      l.foldl (fun r kv => setKey r kv.1 kv.2) a := by
  induction l with
  | nil =>
    intro a
    rfl
  | cons kv t ih =>
    intro a
    rw [List.foldl_cons, List.foldl_cons, hT kv (List.mem_cons_self kv t),
      ih (fun x hx => hT x (List.mem_cons_of_mem kv hx))]

theorem addrfix_id_of_params {pr : JSRecord} (hnd : nodupKeys pr = true)
    (hfix : optChecksumFixed (lookupRec "address".toList pr) = true) :
    ∀ kv ∈ pr,
      (if kv.1 = "address".toList then Eip2.toChecksumAddress kv.2 else kv.2) =
        kv.2 := by
  intro kv hm
  by_cases ha : kv.1 = "address".toList
  · rw [if_pos ha]
    have hmem : (kv.1, kv.2) ∈ pr := by
      rw [Prod.mk.eta]
      exact hm
    have hlk : lookupRec "address".toList pr = some kv.2 := by
      rw [← ha]
      exact lookup_eq_some_of_mem hnd hmem
    rw [hlk] at hfix
    simp only [optChecksumFixed, decide_eq_true_eq] at hfix
    exact hfix
  · rw [if_neg ha]

theorem map_qsPair_paramPieces2 {pr : JSRecord}
    (hk : ∀ kv ∈ pr, keyReEncodable kv.1 = true)
    (hv : ∀ kv ∈ pr, asciiStr kv.2 = true)
    (hfix : optChecksumFixed (lookupRec "address".toList pr) = true)
    (hnd : nodupKeys pr = true) :
    ((jsEntries pr).map Eip2.paramPiece).map qsPair = jsEntries pr := by
  rw [List.map_map]
  have hone : ∀ kv ∈ jsEntries pr, (qsPair ∘ Eip2.paramPiece) kv = kv := by
    intro kv hm
    have hmp : kv ∈ pr := (jsEntries_perm pr).subset hm
    obtain ⟨k, val⟩ := kv
    obtain ⟨hascii, hpc, hplus, _, heq, _⟩ := keyReEncodable_parts (hk (k, val) hmp)
    show qsPair (Eip2.paramPiece (k, val)) = (k, val)
    unfold Eip2.paramPiece
    rw [show (if ((k, val) : Str × Str).1 = "address".toList
          then Eip2.toChecksumAddress ((k, val) : Str × Str).2
          else ((k, val) : Str × Str).2) = val from
        addrfix_id_of_params hnd hfix (k, val) hmp]
    have hasciival : ∀ c ∈ val, c.toNat < 128 := by
      have := hv (k, val) hmp
      simp only [asciiStr, List.all_eq_true, decide_eq_true_eq] at this
      exact this
    rw [qsPair_kv _ (not_mem_of_contains_false heq),
      qsDecode_eq_self (not_mem_of_contains_false hpc)
        (not_mem_of_contains_false hplus),
      qsDecode_encode hasciival]
  calc (jsEntries pr).map (qsPair ∘ Eip2.paramPiece)
      = (jsEntries pr).map id := List.map_congr_left hone
    _ = jsEntries pr := List.map_id _

theorem Eip2.parse_with_query2 (H J : Str) (hH : '?' ∉ H) (hJq : '?' ∉ J)
    (hJn : J ≠ []) :
    Eip2.parseEIP681URL (ethScheme ++ (H ++ '?' :: J)) =
      (Eip2.parseEIP681URL (ethScheme ++ H)).map fun r0 =>
        let rec0 := (uspEntries J).foldl (fun r kv => setKey r kv.1 kv.2) []
        { r0 with parameters :=
            if rec0 ≠ [] then
              some ((jsEntries rec0).foldl (fun r kv =>
                setKey r kv.1
                  (if kv.1 = "address".toList then Eip2.toChecksumAddress kv.2
                   else kv.2)) [])
            else none } := by
  unfold Eip2.parseEIP681URL
  rw [if_pos (strStarts_append_self _ _), if_pos (strStarts_append_self _ _),
    drop_scheme_append, drop_scheme_append]
  simp only [splitOnChar_append J hH, splitOnChar_of_not_mem hJq,
    splitOnChar_of_not_mem hH, List.headD_cons, List.getElem?_cons_succ,
    List.getElem?_cons_zero, List.getElem?_nil]
  rw [show entriesOfQS (some J) = uspEntries J from by
    show (if J ≠ [] then uspEntries J else []) = uspEntries J
    rw [if_pos hJn]]
  rfl

theorem Eip2.parse_genHead2 (A : Str) (c : JSNum) (fo : Option Str)
    (hAat : '@' ∉ A) (hAsl : '/' ∉ A) (hAq : '?' ∉ A)
    (hc : chainOk2 c = true) (hf : fnOk2 fo = true) :
    Eip2.parseEIP681URL (ethScheme ++ (A ++ chainSegment c ++ fnSegment fo)) =
      some { scheme := "ethereum".toList, address := Eip2.toChecksumAddress A,
             chainId := c, functionName := fo, parameters := none } := by
  cases c with
  | nan => exact absurd hc (by decide)
  | num n =>
    obtain ⟨hn0, hn1⟩ := chainOk2_parts hc
    have hCS : chainSegment (JSNum.num n) = '@' :: intToDec n := by
      simp only [chainSegment]
      rw [if_pos ⟨hn0, hn1⟩]
    rw [hCS]
    have hDat : '@' ∉ intToDec n := intToDec_char_free (by decide) (by decide) n
    have hDsl : '/' ∉ intToDec n := intToDec_char_free (by decide) (by decide) n
    have hDq : '?' ∉ intToDec n := intToDec_char_free (by decide) (by decide) n
    cases fo with
    | none =>
      rw [show fnSegment none = ([] : Str) from rfl, List.append_nil]
      unfold Eip2.parseEIP681URL
      rw [if_pos (strStarts_append_self _ _), drop_scheme_append]
      have hTq : '?' ∉ A ++ '@' :: intToDec n := by
        intro hm
        rcases List.mem_append.1 hm with h1 | h1
        · exact hAq h1
        · rcases List.mem_cons.1 h1 with h2 | h2
          · cases h2
          · exact hDq h2
      have hTat : (A ++ '@' :: intToDec n).contains '@' = true :=
        (contains_true_iff _ _).2
          (List.mem_append.2 (Or.inr (List.mem_cons_self _ _)))
      simp only [splitOnChar_of_not_mem hTq, List.headD_cons,
        List.getElem?_cons_succ, List.getElem?_nil, hTat, if_true,
        splitOnChar_append _ hAat, splitOnChar_of_not_mem hDat,
        List.getD_cons_succ, List.getD_cons_zero,
        contains_false_of_not_mem hDsl, contains_false_of_not_mem hAsl,
        Bool.false_eq_true, if_false, Bool.true_and, Bool.and_false]
      rw [jsParseInt_intToDec_plain]
      rfl
    | some f =>
      obtain ⟨hfne, hfat, hfsl, hfq⟩ := fnOk2_parts hf
      rw [show fnSegment (some f) = '/' :: f from by
        simp only [fnSegment]
        rw [if_pos hfne]]
      unfold Eip2.parseEIP681URL
      rw [if_pos (strStarts_append_self _ _), drop_scheme_append,
        show A ++ ('@' :: intToDec n) ++ '/' :: f =
            A ++ '@' :: (intToDec n ++ '/' :: f) from by
          simp [List.append_assoc]]
      have hTq : '?' ∉ A ++ '@' :: (intToDec n ++ '/' :: f) := by
        intro hm
        rcases List.mem_append.1 hm with h1 | h1
        · exact hAq h1
        · rcases List.mem_cons.1 h1 with h2 | h2
          · cases h2
          · rcases List.mem_append.1 h2 with h3 | h3
            · exact hDq h3
            · rcases List.mem_cons.1 h3 with h4 | h4
              · cases h4
              · exact hfq h4
      have hTat : (A ++ '@' :: (intToDec n ++ '/' :: f)).contains '@' = true :=
        (contains_true_iff _ _).2
          (List.mem_append.2 (Or.inr (List.mem_cons_self _ _)))
      have hDFat : '@' ∉ intToDec n ++ '/' :: f := by
        intro hm
        rcases List.mem_append.1 hm with h1 | h1
        · exact hDat h1
        · rcases List.mem_cons.1 h1 with h2 | h2
          · cases h2
          · exact hfat h2
      have hCPsl : (intToDec n ++ '/' :: f).contains '/' = true :=
        (contains_true_iff _ _).2
          (List.mem_append.2 (Or.inr (List.mem_cons_self _ _)))
      have hfd : (decide (f = []) : Bool) = false := decide_eq_false hfne
      simp only [splitOnChar_of_not_mem hTq, List.headD_cons,
        List.getElem?_cons_succ, List.getElem?_nil, hTat, if_true,
        splitOnChar_append _ hAat, splitOnChar_of_not_mem hDFat,
        List.getD_cons_succ, List.getD_cons_zero, hCPsl,
        splitOnChar_append f hDsl, splitOnChar_of_not_mem hfsl,
        hfd, Bool.false_and, Bool.false_eq_true, if_false]
      rw [jsParseInt_intToDec_plain]
      rfl
  | undef =>
    rw [show chainSegment JSNum.undef = ([] : Str) from rfl, List.append_nil]
    cases fo with
    | none =>
      rw [show fnSegment none = ([] : Str) from rfl, List.append_nil,
        Eip2.parse_plain2 A hAat hAsl hAq]
    | some f =>
      obtain ⟨hfne, hfat, hfsl, hfq⟩ := fnOk2_parts hf
      rw [show fnSegment (some f) = '/' :: f from by
        simp only [fnSegment]
        rw [if_pos hfne]]
      unfold Eip2.parseEIP681URL
      rw [if_pos (strStarts_append_self _ _), drop_scheme_append]
      have hTq : '?' ∉ A ++ '/' :: f := by
        intro hm
        rcases List.mem_append.1 hm with h1 | h1
        · exact hAq h1
        · rcases List.mem_cons.1 h1 with h2 | h2
          · cases h2
          · exact hfq h2
      have hTat : (A ++ '/' :: f).contains '@' = false := by
        apply contains_false_of_not_mem
        intro hm
        rcases List.mem_append.1 hm with h1 | h1
        · exact hAat h1
        · rcases List.mem_cons.1 h1 with h2 | h2
          · cases h2
          · exact hfat h2
      have hTsl : (A ++ '/' :: f).contains '/' = true :=
        (contains_true_iff _ _).2
          (List.mem_append.2 (Or.inr (List.mem_cons_self _ _)))
      simp only [splitOnChar_of_not_mem hTq, List.headD_cons,
        List.getElem?_cons_succ, List.getElem?_nil, hTat, Bool.false_eq_true,
        if_false, hTsl, Bool.true_and, if_true, splitOnChar_append f hAsl,
        splitOnChar_of_not_mem hfsl, List.getD_cons_succ, List.getD_cons_zero]
      rfl

theorem Eip2.parse_scheme {url : Str} {r : Eip2.ParsedURL}
    (h : Eip2.parseEIP681URL url = some r) : r.scheme = "ethereum".toList := by
  unfold Eip2.parseEIP681URL at h
  split at h
  · have h2 := Option.some.inj h
    rw [← h2]
  · cases h

/-- C2 amended: decoding is idempotent through a re-encode for every
decoded record whose components the encoder can reproduce: chain id
absent or an integer other than the dropped values 0 and 1, function
name absent or nonempty and free of `@` `/` `?`, address free of
`@` `/` `?` and fixed by checksum normalization, and parameters (when
present) nonempty with distinct re-encodable keys, ASCII values and an
`address` entry fixed by checksum normalization.  Re-encoding such a
record and decoding again yields the same record up to property order of
the parameters object (the re-parse enumerates array-index-like keys
first, so a permutation — not always syntactic equality — is what
survives). -/
theorem c2_decode_idempotent_amended (url : Str) (r : Eip2.ParsedURL)
    (h : Eip2.parseEIP681URL url = some r) (hg : Eip2.goodParsed r = true) :
    ∃ r2, Eip2.parseEIP681URL (Eip2.generateEIP681URL (Eip2.toParams r)) =
        some r2 ∧ Eip2.ParsedURL.equiv r2 r := by
  have hscheme : r.scheme = "ethereum".toList := Eip2.parse_scheme h
  simp only [Eip2.goodParsed, Bool.and_eq_true] at hg
  obtain ⟨⟨⟨haddr, hchain⟩, hfn⟩, hpars⟩ := hg
  simp only [addrOk2, Bool.and_eq_true, Bool.not_eq_true',
    decide_eq_true_eq] at haddr
  obtain ⟨⟨⟨hAat0, hAsl0⟩, hAq0⟩, hAfix⟩ := haddr
  have hAat : '@' ∉ r.address := not_mem_of_contains_false hAat0
  have hAsl : '/' ∉ r.address := not_mem_of_contains_false hAsl0
  have hAq : '?' ∉ r.address := not_mem_of_contains_false hAq0
  have hHq : '?' ∉ r.address ++ chainSegment r.chainId ++
      fnSegment r.functionName := by
    intro hm
    rcases List.mem_append.1 hm with h1 | h1
    · rcases List.mem_append.1 h1 with h2 | h2
      · exact hAq h2
      · exact chainSegment_chars (by decide) (by decide) (by decide) h2
    · refine fnSegment_chars2 (fun f hf0 => ?_) (by decide) h1
      rw [hf0] at hfn
      exact (fnOk2_parts hfn).2.2.2
  cases hpar : r.parameters with
  | none =>
    have hqp : Eip2.queryPieces (Eip2.toParams r) = [] := by
      simp [Eip2.queryPieces, Eip2.toParams, fieldPieces, valuePiece, gasPiece,
        optParamPieces, hpar]
    have hgen : Eip2.generateEIP681URL (Eip2.toParams r) = ethScheme ++
        (r.address ++ chainSegment r.chainId ++ fnSegment r.functionName) := by
      simp only [Eip2.generateEIP681URL]
      rw [hqp, if_neg (fun hne => hne rfl)]
      simp only [Eip2.toParams]
      rw [hAfix]
      simp [List.append_assoc]
    refine ⟨{ scheme := "ethereum".toList,
              address := Eip2.toChecksumAddress r.address,
              chainId := r.chainId, functionName := r.functionName,
              parameters := none }, ?_, ?_⟩
    · rw [hgen,
        Eip2.parse_genHead2 r.address r.chainId r.functionName hAat hAsl hAq
          hchain hfn]
    · unfold Eip2.ParsedURL.equiv
      refine ⟨hscheme.symm, hAfix, rfl, rfl, ?_⟩
      rw [hpar]
      trivial
  | some pr =>
    rw [hpar] at hpars
    simp only [paramsOk2, Bool.and_eq_true, List.all_eq_true,
      decide_eq_true_eq] at hpars
    obtain ⟨⟨⟨hne0, hnd⟩, hall⟩, hfix2⟩ := hpars
    have hjsne : jsEntries pr ≠ [] := by
      intro hnil
      have hperm := jsEntries_perm pr
      rw [hnil] at hperm
      exact hne0 hperm.symm.eq_nil
    have hndjs : nodupKeys (jsEntries pr) = true :=
      nodupKeys_of_perm (jsEntries_perm pr).symm hnd
    have hndjs2 : nodupKeys (jsEntries (jsEntries pr)) = true :=
      nodupKeys_of_perm (jsEntries_perm (jsEntries pr)).symm hndjs
    have hqp : Eip2.queryPieces (Eip2.toParams r) =
        (jsEntries pr).map Eip2.paramPiece := by
      simp [Eip2.queryPieces, Eip2.toParams, fieldPieces, valuePiece, gasPiece,
        optParamPieces, hpar]
    have hQn2 : (jsEntries pr).map Eip2.paramPiece ≠ [] := by
      intro hnil
      rw [List.map_eq_nil_iff] at hnil
      exact hjsne hnil
    have hqpne : Eip2.queryPieces (Eip2.toParams r) ≠ [] := by
      rw [hqp]
      exact hQn2
    have hQne2 : ∀ pc ∈ (jsEntries pr).map Eip2.paramPiece, pc ≠ [] := by
      intro pc hpc
      rw [List.mem_map] at hpc
      obtain ⟨kv, _, he⟩ := hpc
      subst he
      unfold Eip2.paramPiece
      simp
    have hkeyfacts : ∀ kv ∈ jsEntries pr, keyReEncodable kv.1 = true :=
      fun kv hm => (hall kv ((jsEntries_perm pr).subset hm)).1
    have hQamp2 : ∀ pc ∈ (jsEntries pr).map Eip2.paramPiece, '&' ∉ pc := by
      intro pc hpc
      rw [List.mem_map] at hpc
      obtain ⟨kv, hkv, he⟩ := hpc
      subst he
      exact paramPiece2_char_free
        (keyReEncodable_parts (hkeyfacts kv hkv)).2.2.2.1
        (by decide) (by decide) (by decide) (by decide)
    have hQq2 : ∀ pc ∈ (jsEntries pr).map Eip2.paramPiece, '?' ∉ pc := by
      intro pc hpc
      rw [List.mem_map] at hpc
      obtain ⟨kv, hkv, he⟩ := hpc
      subst he
      exact paramPiece2_char_free
        (keyReEncodable_parts (hkeyfacts kv hkv)).2.2.2.2.2
        (by decide) (by decide) (by decide) (by decide)
    have hJn : joinChar '&' ((jsEntries pr).map Eip2.paramPiece) ≠ [] :=
      joinChar_ne_nil hQn2 hQne2
    have hJq : '?' ∉ joinChar '&' ((jsEntries pr).map Eip2.paramPiece) := by
      intro hm
      rcases mem_joinChar hm with h1 | ⟨pc, hpc, hin⟩
      · cases h1
      · exact hQq2 pc hpc hin
    have hgen : Eip2.generateEIP681URL (Eip2.toParams r) = ethScheme ++
        ((r.address ++ chainSegment r.chainId ++ fnSegment r.functionName) ++
          '?' :: joinChar '&' ((jsEntries pr).map Eip2.paramPiece)) := by
      simp only [Eip2.generateEIP681URL]
      rw [if_pos hqpne, hqp]
      simp only [Eip2.toParams]
      rw [hAfix]
      simp [List.append_assoc]
    refine ⟨{ scheme := "ethereum".toList,
              address := Eip2.toChecksumAddress r.address,
              chainId := r.chainId, functionName := r.functionName,
              parameters := some (jsEntries (jsEntries pr)) }, ?_, ?_⟩
    · rw [hgen, Eip2.parse_with_query2 _ _ hHq hJq hJn,
        Eip2.parse_genHead2 r.address r.chainId r.functionName hAat hAsl hAq
          hchain hfn]
      simp only [Option.map]
      rw [uspEntries_joinChar hQn2 hQne2 hQamp2,
        map_qsPair_paramPieces2 (fun kv hm => (hall kv hm).1)
          (fun kv hm => (hall kv hm).2) hfix2 hnd]
      rw [show List.foldl (fun r kv => setKey r kv.1 kv.2) [] (jsEntries pr) =
          jsEntries pr from foldl_setKey_nodup _ hndjs]
      rw [if_pos hjsne]
      rw [foldl_setKey_addrfix (fun kv hm =>
          addrfix_id_of_params hnd hfix2 kv
            ((jsEntries_perm pr).subset
              ((jsEntries_perm (jsEntries pr)).subset hm))) []]
      rw [show List.foldl (fun r kv => setKey r kv.1 kv.2) []
            (jsEntries (jsEntries pr)) =
          jsEntries (jsEntries pr) from foldl_setKey_nodup _ hndjs2]
    · unfold Eip2.ParsedURL.equiv
      refine ⟨hscheme.symm, hAfix, rfl, rfl, ?_⟩
      rw [hpar]
      show (jsEntries (jsEntries pr)).Perm pr
      exact (jsEntries_perm _).trans (jsEntries_perm _)

/-- C2 witness: `ethereum:abc@5/transfer?tok=1&address=xyz` decodes to a
reproducible record, and re-encoding that record decodes to an equivalent
record. -/
theorem c2_decode_idempotent_amended_witness :
    Eip2.parseEIP681URL "ethereum:abc@5/transfer?tok=1&address=xyz".toList =
      some { scheme := "ethereum".toList, address := "abc".toList,
             chainId := JSNum.num 5, functionName := some "transfer".toList,
             parameters := some [("tok".toList, "1".toList),
               ("address".toList, "xyz".toList)] } ∧
    Eip2.goodParsed
      { scheme := "ethereum".toList, address := "abc".toList,
        chainId := JSNum.num 5, functionName := some "transfer".toList,
        parameters := some [("tok".toList, "1".toList),
          ("address".toList, "xyz".toList)] } = true ∧
    ∃ r2, Eip2.parseEIP681URL (Eip2.generateEIP681URL (Eip2.toParams
        { scheme := "ethereum".toList, address := "abc".toList,
          chainId := JSNum.num 5, functionName := some "transfer".toList,
          parameters := some [("tok".toList, "1".toList),
            ("address".toList, "xyz".toList)] })) = some r2 ∧
      Eip2.ParsedURL.equiv r2
        { scheme := "ethereum".toList, address := "abc".toList,
          chainId := JSNum.num 5, functionName := some "transfer".toList,
          parameters := some [("tok".toList, "1".toList),
            ("address".toList, "xyz".toList)] } :=
  ⟨by decide, by decide,
    c2_decode_idempotent_amended "ethereum:abc@5/transfer?tok=1&address=xyz".toList
      _ (by decide) (by decide)⟩

/-- C10 witness: the bare scheme string and a plain-text remainder. -/
theorem c10_decode_total_with_scheme_witness :
    ((Eip.parseEIP681URL "ethereum:".toList).isSome = true ∧
      (Eip2.parseEIP681URL "ethereum:".toList).isSome = true) ∧
    ((Eip.parseEIP681URL ("ethereum:" ++ "hello!").toList).map
        Eip.EipResult.address = some "hello!".toList ∧
      (Eip2.parseEIP681URL ("ethereum:" ++ "hello!").toList).map
        Eip2.ParsedURL.address = some "hello!".toList) := by
  constructor
  · exact c10_decode_total_with_scheme.1 "ethereum:".toList (by decide)
  · have h := c10_decode_total_with_scheme.2 "hello!".toList
      (by decide) (by decide) (by decide) (by decide)
    exact h

end EipCodec
